import Mathlib

/-!
Shallow embedding of the piece/block download engine of a BitTorrent-style
client (source file piece_manager.py). Bytes are modelled as `Nat`, byte
strings as `List Nat`, wall-clock timestamps and rates as `ℚ`. The SHA1
function lives in a module (utils.py) that is outside the embedded sources,
so every definition that needs it is parametric in a function `hashFn`.
Python set iteration order is unspecified, so the availability set handed to
`get_next_request` is modelled as the list of its elements in iteration
order. Python `list.sort` is a stable sort; `stableSortBy` below is a stable
insertion sort, and any two stable sorts by the same key produce the same
output, so it is a faithful model of `sort(key=...)`, and of
`sort(key=..., reverse=True)` via a negated key (CPython documents that
`reverse=True` also preserves the relative order of equal elements).
-/

/-- Standard block size for BitTorrent (16KB); constant `BLOCK_SIZE`. -/
def BLOCK_SIZE : Nat := 16384

/-- Block within a piece (class `Block`): fixed (piece_index, offset, length),
mutable payload and requested/received flags. -/
structure Block where
  piece_index : Nat
  offset : Nat
  length : Nat
  data : Option (List Nat)
  requested : Bool
  received : Bool
deriving DecidableEq

/-- Piece with its blocks (class `Piece`). `data` is the assembly buffer of
`length` bytes. -/
structure Piece where
  index : Nat
  length : Nat
  hash_value : List Nat
  blocks : List Block
  completed : Bool
  verified : Bool
  data : List Nat
deriving DecidableEq

instance : Inhabited Piece :=
  ⟨{ index := 0, length := 0, hash_value := [], blocks := [], completed := false,
     verified := false, data := [] }⟩

/-- Loop body of `Piece._create_blocks`, with an explicit fuel argument so
the recursion is structural (and hence kernel-computable). Each iteration
advances `offset` by at least one byte, so with `fuel = L - offset` the fuel
never runs out before the loop condition `offset < L` fails, and the result
is exactly the while loop's output. -/
def createBlocksGo (pieceIndex L : Nat) : Nat → Nat → List Block
  | 0, _ => []
  | fuel + 1, offset =>
    if offset < L then
      { piece_index := pieceIndex, offset := offset,
        length := min BLOCK_SIZE (L - offset),
        data := none, requested := false, received := false }
        :: createBlocksGo pieceIndex L fuel (offset + min BLOCK_SIZE (L - offset))
    else []

/-- Loop of `Piece._create_blocks`: starting at `offset`, slice `[offset, L)`
into chunks of at most `BLOCK_SIZE` bytes. -/
def createBlocksAux (pieceIndex L offset : Nat) : List Block :=
  createBlocksGo pieceIndex L (L - offset) offset

/-- Constructor `Piece.__init__`: fresh flags, zeroed buffer, blocks created
by `_create_blocks`. -/
def mkPiece (index L : Nat) (hash_value : List Nat) : Piece :=
  { index := index, length := L, hash_value := hash_value,
    blocks := createBlocksAux index L 0, completed := false, verified := false,
    data := List.replicate L 0 }

/-- Predicate for a block in the Missing state (`not received and not
requested`), as used by `get_missing_blocks`. -/
def blockMissing (b : Block) : Bool := !b.received && !b.requested

/-- Method `Piece.is_complete`: all blocks received. -/
def Piece.is_complete (p : Piece) : Bool := p.blocks.all (fun b => b.received)

/-- Method `Piece.verify`: false unless completed, otherwise compare the hash
of the assembly buffer with the expected digest. -/
def Piece.verify (p : Piece) (hashFn : List Nat → List Nat) : Bool :=
  if !p.completed then false
  else decide (hashFn p.data = p.hash_value)

/-- Method `Piece.get_missing_blocks`: blocks neither received nor requested,
in partition order. -/
def Piece.get_missing_blocks (p : Piece) : List Block := p.blocks.filter blockMissing

/-- Method `Piece.get_requested_blocks`: blocks requested but not received. -/
def Piece.get_requested_blocks (p : Piece) : List Block :=
  p.blocks.filter (fun b => b.requested && !b.received)

/-- Method `Piece.reset_block_requests`: clear the requested flag of every
block that is not received. -/
def Piece.reset_block_requests (p : Piece) : Piece :=
  let bs := p.blocks.map (fun b => if !b.received then { b with requested := false } else b)
  { p with blocks := bs }

/-- Python bytearray slice assignment `buf[offset:offset+len(d)] = d`. -/
def writeSlice (buf : List Nat) (offset : Nat) (payload : List Nat) : List Nat :=
  buf.take offset ++ payload ++ buf.drop (offset + payload.length)

/-- Loop of `Piece.add_block_data`: find the first block with matching
(offset, length) that is not yet received, store the payload on it and mark
it received; `none` when the loop falls through (no such block). -/
def addToBlocks (offset : Nat) (payload : List Nat) : List Block → Option (List Block)
  | [] => none
  | b :: bs =>
    if b.offset = offset ∧ b.length = payload.length ∧ ¬b.received then
      some ({ b with data := some payload, received := true } :: bs)
    else
      match addToBlocks offset payload bs with
      | some bs2 => some (b :: bs2)
      | none => none

/-- Method `Piece.add_block_data`: bound check, block lookup and mutation,
buffer write, and (on the path that completed the piece) the completion and
verification flag updates. Returns the updated piece and the boolean result. -/
def Piece.add_block_data (p : Piece) (hashFn : List Nat → List Nat)
    (offset : Nat) (payload : List Nat) : Piece × Bool :=
  if p.length < offset + payload.length then (p, false)
  else
    match addToBlocks offset payload p.blocks with
    | none => (p, false)
    | some bs2 =>
      let p1 : Piece := { p with blocks := bs2, data := writeSlice p.data offset payload }
      if p1.is_complete then
        let p2 : Piece := { p1 with completed := true }
        ({ p2 with verified := p2.verify hashFn }, true)
      else (p1, true)

/-- Intermediate piece value inside `add_block_data` after the block store
and the buffer write, before the completion check. -/
def storedPiece (p : Piece) (bs2 : List Block) (offset : Nat) (payload : List Nat) : Piece :=
  { p with blocks := bs2, data := writeSlice p.data offset payload }

/-- Mark the first Missing block of a block list as requested; models the
in-place mutation `missing_blocks[0].requested = True` in
`get_next_request`. -/
def markFirstMissing : List Block → List Block
  | [] => []
  | b :: bs =>
    if blockMissing b then { b with requested := true } :: bs
    else b :: markFirstMissing bs

/-- Loop of `mark_block_requested`: set the requested flag on the first block
whose offset matches, then break. -/
def markOffset (offset : Nat) : List Block → List Block
  | [] => []
  | b :: bs =>
    if b.offset = offset then { b with requested := true } :: bs
    else b :: markOffset offset bs

/-- Stable insertion of `x` into a list sorted ascending by `key`: `x` is
placed before the first element whose key is not smaller, so it lands after
every earlier element of equal key. -/
def insertKey {α : Type} (key : α → Int) (x : α) : List α → List α
  | [] => [x]
  | y :: ys => if key y < key x then y :: insertKey key x ys else x :: y :: ys

/-- Stable sort ascending by `key` (insertion sort); models Python
`list.sort(key=...)`. -/
def stableSortBy {α : Type} (key : α → Int) : List α → List α
  | [] => []
  | x :: xs => insertKey key x (stableSortBy key xs)

/-- State of class `PieceManager` (the lock and the callback slot carry no
state relevant to the embedded behaviour; callback invocation is surfaced as
an explicit event in `AddResult`). -/
structure PieceManager where
  pieces : List Piece
  completed_pieces : Finset Nat
  download_rate_limit : ℚ
  bytes_downloaded_window : List (ℚ × Nat)
  rate_window_size : ℚ
  high_priority_pieces : Finset Nat
  piece_priorities : List (Nat × Int)
deriving DecidableEq

/-- Lookup of `self.pieces[i]`; the Python dict is keyed by 0..total-1, so a
list indexed by position is a faithful model and `i in self.pieces` is
`i < pieces.length`. -/
def pieceAt (S : PieceManager) (i : Nat) : Piece := S.pieces.getD i default

/-- Constructor `PieceManager.__init__` together with `_initialize_pieces`,
taking the MetadataSource snapshot (total piece count, per-piece length,
per-piece hash) as arguments. -/
def initPM (totalPieces : Nat) (plen : Nat → Nat) (phash : Nat → List Nat) : PieceManager :=
  { pieces := (List.range totalPieces).map (fun i => mkPiece i (plen i) (phash i)),
    completed_pieces := ∅,
    download_rate_limit := 1048576,
    bytes_downloaded_window := [],
    rate_window_size := 5,
    high_priority_pieces := ∅,
    piece_priorities := [] }

/-- Verification-failure reset in `add_piece_data`: flags cleared, buffer
re-zeroed, every block back to Missing with its payload discarded. -/
def resetPiece (p : Piece) : Piece :=
  let bs := p.blocks.map (fun b => { b with data := none, received := false, requested := false })
  { p with
    completed := false,
    verified := false,
    data := List.replicate p.length 0,
    blocks := bs }

/-- Result of `add_piece_data`: the new manager state, the boolean return
value, and the completion-callback event (piece index and assembled bytes)
when one is delivered. -/
structure AddResult where
  state : PieceManager
  ok : Bool
  callback : Option (Nat × List Nat)
deriving DecidableEq

/-- Method `PieceManager.add_piece_data`. -/
def addPieceData (hashFn : List Nat → List Nat) (S : PieceManager)
    (i offset : Nat) (payload : List Nat) : AddResult :=
  if i < S.pieces.length then
    let p := pieceAt S i
    if p.completed then ⟨S, true, none⟩
    else
      let r := p.add_block_data hashFn offset payload
      let S1 : PieceManager := { S with pieces := S.pieces.set i r.1 }
      if r.2 && r.1.completed then
        if r.1.verified then
          ⟨{ S1 with completed_pieces := insert i S1.completed_pieces }, r.2,
            some (i, r.1.data)⟩
        else
          ⟨{ S1 with pieces := S1.pieces.set i (resetPiece r.1) }, r.2, none⟩
      else ⟨S1, r.2, none⟩
  else ⟨S, false, none⟩

/-- Candidate filter at the top of `get_next_request`: tracked and not in the
completed set, in availability-iteration order. -/
def neededPieces (S : PieceManager) (avail : List Nat) : List Nat :=
  avail.filter (fun i => decide (i < S.pieces.length) && decide (i ∉ S.completed_pieces))

/-- High-priority subset of the candidates (`high_priority` list in
`get_next_request`). -/
def highPriorityCandidates (S : PieceManager) (avail : List Nat) : List Nat :=
  (neededPieces S avail).filter (fun i => decide (i ∈ S.high_priority_pieces))

/-- Lookup `self.piece_priorities.get(p, 5)`. The table is a prepend-only
association list (first binding wins), observationally equal to the Python
dict, whose only reads are single-key lookups. -/
def priorityGet (ps : List (Nat × Int)) (i : Nat) : Int := (ps.lookup i).getD 5

/-- Count of currently-Missing blocks of piece `i`, the key of the second
(dominant) sort pass of `get_next_request`. -/
def missingCount (S : PieceManager) (i : Nat) : Nat :=
  ((pieceAt S i).get_missing_blocks).length

/-- Final loop of `get_next_request`: walk the ordered candidates; at the
first piece with a Missing block, mark that block requested and return its
(pieceIndex, offset, length). -/
def walkRequest (S : PieceManager) : List Nat → Option (Nat × Nat × Nat) × PieceManager
  | [] => (none, S)
  | i :: rest =>
    match ((pieceAt S i).get_missing_blocks).head? with
    | some b =>
      let p1 : Piece := { pieceAt S i with blocks := markFirstMissing (pieceAt S i).blocks }
      (some (i, b.offset, b.length), { S with pieces := S.pieces.set i p1 })
    | none => walkRequest S rest

/-- Ordered candidate list of `get_next_request`: the high-priority override
(which, in the source, skips the numeric-priority sort because that sort sits
in the `else` branch), then the priority sort pass (descending via a negated
key), then the dominant missing-count sort pass. -/
def candidateOrder (S : PieceManager) (avail : List Nat) : List Nat :=
  stableSortBy (fun p => ((missingCount S p : Int)))
    (if !(highPriorityCandidates S avail).isEmpty then highPriorityCandidates S avail
     else stableSortBy (fun p => -(priorityGet S.piece_priorities p)) (neededPieces S avail))

/-- Method `PieceManager.get_next_request`: candidate filter, the two sort
passes with the high-priority override, and the final walk. -/
def getNextRequest (S : PieceManager) (avail : List Nat) :
    Option (Nat × Nat × Nat) × PieceManager :=
  if (neededPieces S avail).isEmpty then (none, S)
  else walkRequest S (candidateOrder S avail)

/-- Method `PieceManager.mark_block_requested`. -/
def markBlockRequested (S : PieceManager) (i offset : Nat) : PieceManager :=
  if i < S.pieces.length then
    let p1 : Piece := { pieceAt S i with blocks := markOffset offset (pieceAt S i).blocks }
    { S with pieces := S.pieces.set i p1 }
  else S

/-- Method `PieceManager.reset_piece_requests`. -/
def resetPieceRequests (S : PieceManager) (i : Nat) : PieceManager :=
  if i < S.pieces.length then
    { S with pieces := S.pieces.set i ((pieceAt S i).reset_block_requests) }
  else S

/-- Method `PieceManager.set_download_rate_limit`. -/
def setDownloadRateLimit (S : PieceManager) (n : Nat) : PieceManager :=
  { S with download_rate_limit := (n : ℚ) }

/-- Method `PieceManager.check_rate_limit`: prune samples older than the
window (storing the pruned list), then compare the windowed rate plus the
prospective rate against the limit. `now` models `time.time()`. -/
def checkRateLimit (S : PieceManager) (now : ℚ) (n : Nat) : PieceManager × Bool :=
  let w := S.bytes_downloaded_window.filter
    (fun tb => decide (now - tb.1 ≤ S.rate_window_size))
  let total : ℚ := (w.map (fun tb => ((tb.2 : ℚ)))).sum
  let currentRate : ℚ := if w.isEmpty then 0 else total / S.rate_window_size
  ({ S with bytes_downloaded_window := w },
   decide (currentRate + (n : ℚ) / S.rate_window_size ≤ S.download_rate_limit))

/-- Method `PieceManager.update_rate_stats`: append one (now, n) sample. -/
def updateRateStats (S : PieceManager) (now : ℚ) (n : Nat) : PieceManager :=
  { S with bytes_downloaded_window := S.bytes_downloaded_window ++ [(now, n)] }

/-- Dict assignment performed by `set_piece_priority` when the value passes
the 1..10 range check, else a no-op. -/
def priorityUpdate (ps : List (Nat × Int)) (i : Nat) (v : Int) : List (Nat × Int) :=
  if 1 ≤ v ∧ v ≤ 10 then (i, v) :: ps else ps

/-- Method `PieceManager.set_piece_priority`. -/
def setPiecePriority (S : PieceManager) (i : Nat) (v : Int) : PieceManager :=
  { S with piece_priorities := priorityUpdate S.piece_priorities i v }

/-- Method `PieceManager.set_high_priority_piece`. -/
def setHighPriorityPiece (S : PieceManager) (i : Nat) : PieceManager :=
  { S with high_priority_pieces := insert i S.high_priority_pieces }

/-- Method `PieceManager.set_sequential_download`. When enabled with
`1 ≤ totalPieces < 10` the loop body divides by `totalPieces // 10 = 0` and
Python raises ZeroDivisionError; that is modelled as `none`. With
`totalPieces = 0` the loop body never runs, so no division occurs. -/
def setSequentialDownload (S : PieceManager) (enable : Bool) : Option PieceManager :=
  if enable then
    let total := S.pieces.length
    if total = 0 then some S
    else if total / 10 = 0 then none
    else some ((List.range total).foldl
      (fun T i => setPiecePriority T i ((10 : Int) - ((i / (total / 10) : Nat) : Int))) S)
  else some { S with piece_priorities := [] }

/-- Method `PieceManager.get_piece_data`. -/
def getPieceData (S : PieceManager) (i : Nat) : Option (List Nat) :=
  if i ∈ S.completed_pieces ∧ i < S.pieces.length then some ((pieceAt S i).data)
  else none

/-- One mutating public operation of `PieceManager`, with arbitrary
arguments (times, payloads, indices supplied by the environment). -/
inductive Step (hashFn : List Nat → List Nat) : PieceManager → PieceManager → Prop
  | addPiece (S : PieceManager) (i offset : Nat) (payload : List Nat) :
      Step hashFn S (addPieceData hashFn S i offset payload).state
  | nextReq (S : PieceManager) (avail : List Nat) :
      Step hashFn S (getNextRequest S avail).2
  | markReq (S : PieceManager) (i offset : Nat) :
      Step hashFn S (markBlockRequested S i offset)
  | resetReq (S : PieceManager) (i : Nat) :
      Step hashFn S (resetPieceRequests S i)
  | checkRate (S : PieceManager) (now : ℚ) (n : Nat) :
      Step hashFn S (checkRateLimit S now n).1
  | updateRate (S : PieceManager) (now : ℚ) (n : Nat) :
      Step hashFn S (updateRateStats S now n)
  | setLimit (S : PieceManager) (n : Nat) :
      Step hashFn S (setDownloadRateLimit S n)
  | setPrio (S : PieceManager) (i : Nat) (v : Int) :
      Step hashFn S (setPiecePriority S i v)
  | setHP (S : PieceManager) (i : Nat) :
      Step hashFn S (setHighPriorityPiece S i)
  | seqDL (S : PieceManager) (e : Bool) (T : PieceManager) :
      setSequentialDownload S e = some T → Step hashFn S T

/-- States reachable from construction by the public operations. -/
def Reachable (hashFn : List Nat → List Nat) (totalPieces : Nat)
    (plen : Nat → Nat) (phash : Nat → List Nat) (S : PieceManager) : Prop :=
  Relation.ReflTransGen (Step hashFn) (initPM totalPieces plen phash) S

/-- Per-piece part of the completed-set invariant: the index is tracked, all
blocks are received, completion and verification flags are set, and the
assembly buffer hashes to the expected digest. -/
def CompletedOK (hashFn : List Nat → List Nat) (S : PieceManager) (i : Nat) : Prop :=
  i < S.pieces.length ∧
  (∀ b ∈ (pieceAt S i).blocks, b.received = true) ∧
  (pieceAt S i).completed = true ∧
  (pieceAt S i).verified = true ∧
  hashFn ((pieceAt S i).data) = (pieceAt S i).hash_value

/-- Manager-level completed-set invariant. -/
def GoodState (hashFn : List Nat → List Nat) (S : PieceManager) : Prop :=
  ∀ i ∈ S.completed_pieces, CompletedOK hashFn S i

/-- Boolean check that a block list tiles `[offset, L)` in order with no
gaps or overlaps. -/
def tilesFromB (offset L : Nat) : List Block → Bool
  | [] => offset == L
  | b :: bs => (b.offset == offset) && decide (0 < b.length) && tilesFromB (offset + b.length) L bs

/-- Shape of a piece: the (offset, length) partition, which the source fixes
at construction. -/
def shape (p : Piece) : List (Nat × Nat) := p.blocks.map (fun b => (b.offset, b.length))

/-- Priority value computed by the `set_sequential_download` loop body,
`10 - (i // (total_pieces // 10))` (all operands non-negative, so Python
floor division agrees with `Nat` division). -/
def seqPriority (total i : Nat) : Int := (10 : Int) - ((i / (total / 10) : Nat) : Int)

/-- Identity hash stand-in used by concrete scenarios. -/
def hashId : List Nat → List Nat := fun l => l

/-- Concrete manager for the rate-limiter scenario of the spec: empty
torrent, limit 1000 bytes/s, default 5 s window. -/
def rateScenarioBase : PieceManager :=
  { initPM 0 (fun _ => 0) (fun _ => []) with download_rate_limit := 1000 }

/-- Concrete manager with two untouched pieces: piece 0 has 5 blocks and
piece 1 has 1 block (the selection tie-break scenario of the spec). -/
def exRarity : PieceManager :=
  initPM 2 (fun i => if i = 0 then 5 * 16384 else 16384) (fun _ => [1])

/-- Concrete manager with two equal 2-block pieces, both high-priority,
piece 0 at explicit priority 1 and piece 1 at explicit priority 10. -/
def exHP : PieceManager :=
  setPiecePriority
    (setPiecePriority
      (setHighPriorityPiece (setHighPriorityPiece (initPM 2 (fun _ => 32768) (fun _ => [1])) 0) 1)
      0 1)
    1 10

/-- Concrete one-piece manager whose single 1-byte piece has digest `[9]`
(matching `hashId [9]`). -/
def exMatch : PieceManager := initPM 1 (fun _ => 1) (fun _ => [9])

/-- Concrete one-piece manager whose single 1-byte piece has digest `[7]`
(mismatching `hashId [9]`). -/
def exMismatch : PieceManager := initPM 1 (fun _ => 1) (fun _ => [7])

/-! Helper lemmas: list indexing through `getD`/`set`. -/

theorem getD_set {α : Type} [Inhabited α] :
    ∀ (l : List α) (i j : Nat) (a : α),
      (l.set i a).getD j default = if i = j ∧ i < l.length then a else l.getD j default
  | [], i, j, a => by simp
  | x :: t, 0, 0, a => by simp
  | x :: t, 0, j + 1, a => by simp
  | x :: t, i + 1, 0, a => by simp
  | x :: t, i + 1, j + 1, a => by
    have ih := getD_set t i j a
    simp only [List.set_cons_succ, List.getD_cons_succ, List.length_cons, ih]
    by_cases h1 : i = j
    · by_cases h2 : i < t.length <;> simp [h1, h2, Nat.succ_lt_succ_iff]
    · have h3 : ¬ (i + 1 = j + 1) := by omega
      simp [h1, h3]

theorem pieceAt_update (S : PieceManager) (i : Nat) (p1 : Piece) (j : Nat) :
    pieceAt { S with pieces := S.pieces.set i p1 } j =
      if i = j ∧ i < S.pieces.length then p1 else pieceAt S j := by
  simp only [pieceAt]
  exact getD_set S.pieces i j p1

/-! Helper lemmas: the stable insertion sort. -/

theorem mem_insertKey {α : Type} (key : α → Int) (x a : α) :
    ∀ l : List α, a ∈ insertKey key x l ↔ a = x ∨ a ∈ l
  | [] => by simp [insertKey]
  | y :: ys => by
    rw [insertKey]
    split
    · simp only [List.mem_cons, mem_insertKey key x a ys]
      tauto
    · simp only [List.mem_cons]

theorem insertKey_perm {α : Type} (key : α → Int) (x : α) :
    ∀ l : List α, (insertKey key x l).Perm (x :: l)
  | [] => List.Perm.refl _
  | y :: ys => by
    rw [insertKey]
    split
    · exact (List.Perm.cons y (insertKey_perm key x ys)).trans (List.Perm.swap x y ys)
    · exact List.Perm.refl _

theorem stableSortBy_perm {α : Type} (key : α → Int) :
    ∀ l : List α, (stableSortBy key l).Perm l
  | [] => List.Perm.refl _
  | x :: xs => (insertKey_perm key x _).trans (List.Perm.cons x (stableSortBy_perm key xs))

theorem pairwise_insertKey {α : Type} (key : α → Int) (R : α → α → Prop) (x : α) :
    ∀ l : List α, l.Pairwise R → l.Pairwise (fun a b => key a ≤ key b) →
      (∀ y ∈ l, key y < key x → R y x) → (∀ y ∈ l, key x ≤ key y → R x y) →
      (insertKey key x l).Pairwise R
  | [], _, _, _, _ => by simp [insertKey]
  | y :: ys, hR, hs, h1, h2 => by
    rw [insertKey]
    rcases List.pairwise_cons.1 hR with ⟨hRy, hRys⟩
    rcases List.pairwise_cons.1 hs with ⟨hsy, hsys⟩
    split
    · case isTrue hlt =>
      refine List.pairwise_cons.2 ⟨?_, ?_⟩
      · intro z hz
        rcases (mem_insertKey key x z ys).1 hz with rfl | hz2
        · exact h1 y (List.mem_cons_self y ys) hlt
        · exact hRy z hz2
      · refine pairwise_insertKey key R x ys hRys hsys ?_ ?_
        · intro z hz hzx
          exact h1 z (List.mem_cons_of_mem y hz) hzx
        · intro z hz hxz
          exact h2 z (List.mem_cons_of_mem y hz) hxz
    · case isFalse hge =>
      have hxy : key x ≤ key y := le_of_not_lt hge
      refine List.pairwise_cons.2 ⟨?_, hR⟩
      intro z hz
      rcases List.mem_cons.1 hz with rfl | hz2
      · exact h2 z (List.mem_cons_self z ys) hxy
      · exact h2 z (List.mem_cons_of_mem y hz2) (le_trans hxy (hsy z hz2))

theorem stableSortBy_sorted {α : Type} (key : α → Int) :
    ∀ l : List α, (stableSortBy key l).Pairwise (fun a b => key a ≤ key b)
  | [] => List.Pairwise.nil
  | x :: xs =>
    pairwise_insertKey key _ x _ (stableSortBy_sorted key xs) (stableSortBy_sorted key xs)
      (fun _ _ h => le_of_lt h) (fun _ _ h => h)

theorem stableSortBy_pairwise_lex {α : Type} (km kp : α → Int) :
    ∀ l : List α, l.Pairwise (fun a b => kp a ≤ kp b) →
      (stableSortBy km l).Pairwise
        (fun a b => km a < km b ∨ (km a = km b ∧ kp a ≤ kp b))
  | [], _ => List.Pairwise.nil
  | x :: xs, h => by
    rw [stableSortBy]
    rcases List.pairwise_cons.1 h with ⟨hx, hxs⟩
    refine pairwise_insertKey km _ x _ (stableSortBy_pairwise_lex km kp xs hxs)
      (stableSortBy_sorted km xs) ?_ ?_
    · intro y _ hlt
      exact Or.inl hlt
    · intro y hy hle
      rcases lt_or_eq_of_le hle with hlt | heq
      · exact Or.inl hlt
      · exact Or.inr ⟨heq, hx y ((stableSortBy_perm km xs).mem_iff.1 hy)⟩

/-! Helper lemmas: candidate lists. -/

theorem mem_neededPieces {S : PieceManager} {avail : List Nat} {i : Nat} :
    i ∈ neededPieces S avail ↔ i ∈ avail ∧ i < S.pieces.length ∧ i ∉ S.completed_pieces := by
  simp [neededPieces, List.mem_filter, and_assoc]

theorem mem_highPriorityCandidates {S : PieceManager} {avail : List Nat} {i : Nat} :
    i ∈ highPriorityCandidates S avail ↔
      i ∈ neededPieces S avail ∧ i ∈ S.high_priority_pieces := by
  simp [highPriorityCandidates, List.mem_filter]

theorem candidateOrder_no_hp {S : PieceManager} {avail : List Nat}
    (h : highPriorityCandidates S avail = []) :
    candidateOrder S avail =
      stableSortBy (fun p => ((missingCount S p : Int)))
        (stableSortBy (fun p => -(priorityGet S.piece_priorities p)) (neededPieces S avail)) := by
  simp [candidateOrder, h]

theorem candidateOrder_hp {S : PieceManager} {avail : List Nat}
    (h : highPriorityCandidates S avail ≠ []) :
    candidateOrder S avail =
      stableSortBy (fun p => ((missingCount S p : Int))) (highPriorityCandidates S avail) := by
  have : (highPriorityCandidates S avail).isEmpty = false := by
    simpa [List.isEmpty_iff] using h
  simp [candidateOrder, this]

theorem mem_candidateOrder {S : PieceManager} {avail : List Nat} {i : Nat}
    (h : i ∈ candidateOrder S avail) : i ∈ neededPieces S avail := by
  rw [candidateOrder] at h
  have h2 := (stableSortBy_perm (fun p => ((missingCount S p : Int))) _).mem_iff.1 h
  by_cases hhp : (highPriorityCandidates S avail).isEmpty
  · simp only [hhp, Bool.not_true, Bool.false_eq_true, if_false] at h2
    exact (stableSortBy_perm _ _).mem_iff.1 h2
  · simp only [hhp, Bool.not_false, if_true] at h2
    exact (mem_highPriorityCandidates.1 h2).1

/-! Helper lemmas: the final walk of `get_next_request`. -/

theorem walkRequest_none {S : PieceManager} :
    ∀ l : List Nat, (walkRequest S l).1 = none →
      (walkRequest S l).2 = S ∧ ∀ i ∈ l, (pieceAt S i).get_missing_blocks = []
  | [], _ => ⟨rfl, by simp⟩
  | i :: rest, h => by
    rcases hh : ((pieceAt S i).get_missing_blocks).head? with _ | b
    · have hmiss : (pieceAt S i).get_missing_blocks = [] := List.head?_eq_none_iff.1 hh
      rw [walkRequest] at h ⊢
      simp only [hh] at h ⊢
      rcases walkRequest_none rest h with ⟨h1, h2⟩
      refine ⟨h1, ?_⟩
      intro j hj
      rcases List.mem_cons.1 hj with rfl | hj2
      · exact hmiss
      · exact h2 j hj2
    · rw [walkRequest] at h
      simp only [hh] at h
      exact absurd h (by simp)

theorem walkRequest_some {S : PieceManager} :
    ∀ (l : List Nat) (i offset blen : Nat),
      (walkRequest S l).1 = some (i, offset, blen) →
      ∃ l₁ l₂, l = l₁ ++ i :: l₂ ∧
        (∀ j ∈ l₁, (pieceAt S j).get_missing_blocks = []) ∧
        ∃ b, ((pieceAt S i).get_missing_blocks).head? = some b ∧
          offset = b.offset ∧ blen = b.length ∧
          (walkRequest S l).2 =
            { S with pieces := S.pieces.set i { pieceAt S i with blocks := markFirstMissing (pieceAt S i).blocks } }
  | [], i, offset, blen, h => by simp [walkRequest] at h
  | j :: rest, i, offset, blen, h => by
    rcases hh : ((pieceAt S j).get_missing_blocks).head? with _ | b
    · rw [walkRequest] at h
      simp only [hh] at h
      rcases walkRequest_some rest i offset blen h with ⟨l₁, l₂, rfl, h1, b, hb, ho, hl, hst⟩
      refine ⟨j :: l₁, l₂, rfl, ?_, b, hb, ho, hl, ?_⟩
      · intro k hk
        rcases List.mem_cons.1 hk with rfl | hk2
        · exact List.head?_eq_none_iff.1 hh
        · exact h1 k hk2
      · rw [walkRequest]
        simpa only [hh] using hst
    · rw [walkRequest] at h
      simp only [hh] at h
      have h2 : i = j ∧ offset = b.offset ∧ blen = b.length := by
        simpa using h.symm
      rcases h2 with ⟨rfl, rfl, rfl⟩
      refine ⟨[], rest, rfl, by simp, b, hh, rfl, rfl, ?_⟩
      rw [walkRequest]
      simp only [hh]

/-! Helper lemmas: first-missing-block bookkeeping. -/

theorem head_filter_split {α : Type} (p : α → Bool) (b : α) :
    ∀ l : List α, (l.filter p).head? = some b →
      ∃ l₁ l₂, l = l₁ ++ b :: l₂ ∧ (∀ c ∈ l₁, p c = false) ∧ p b = true
  | [], h => by simp at h
  | c :: l, h => by
    by_cases hc : p c
    · rw [List.filter_cons_of_pos hc] at h
      simp only [List.head?_cons, Option.some.injEq] at h
      subst h
      exact ⟨[], l, rfl, by simp, hc⟩
    · rw [List.filter_cons_of_neg hc] at h
      rcases head_filter_split p b l h with ⟨l₁, l₂, rfl, h1, h2⟩
      refine ⟨c :: l₁, l₂, rfl, ?_, h2⟩
      intro d hd
      rcases List.mem_cons.1 hd with rfl | hd2
      · exact Bool.eq_false_iff.2 hc
      · exact h1 d hd2

theorem markFirstMissing_append (b : Block) (l₂ : List Block) :
    ∀ l₁ : List Block, (∀ c ∈ l₁, blockMissing c = false) → blockMissing b = true →
      markFirstMissing (l₁ ++ b :: l₂) = l₁ ++ { b with requested := true } :: l₂
  | [], _, hb => by
    rw [List.nil_append, markFirstMissing, if_pos hb, List.nil_append]
  | c :: l₁, h1, hb => by
    have hc : blockMissing c = false := h1 c (List.mem_cons_self c l₁)
    rw [List.cons_append, markFirstMissing, hc]
    simp only [Bool.false_eq_true, if_false, List.cons_append, List.cons.injEq, true_and]
    exact markFirstMissing_append b l₂ l₁ (fun d hd => h1 d (List.mem_cons_of_mem c hd)) hb

/-! Helper lemmas: the block partition built by `_create_blocks`. -/

theorem createBlocksGo_stop (pieceIndex L : Nat) :
    ∀ (fuel offset : Nat), ¬ offset < L → createBlocksGo pieceIndex L fuel offset = []
  | 0, _, _ => rfl
  | fuel + 1, offset, h => by rw [createBlocksGo, if_neg h]

theorem createBlocksAux_eq_nil_iff (pieceIndex L offset : Nat) :
    createBlocksAux pieceIndex L offset = [] ↔ ¬ offset < L := by
  constructor
  · intro h hlt
    rw [createBlocksAux] at h
    have hf : L - offset = (L - offset - 1) + 1 := by omega
    rw [hf, createBlocksGo, if_pos hlt] at h
    cases h
  · intro h
    rw [createBlocksAux]
    exact createBlocksGo_stop pieceIndex L (L - offset) offset h

theorem createBlocksGo_tiles (pieceIndex L : Nat) :
    ∀ (fuel offset : Nat), offset ≤ L → L - offset ≤ fuel →
      tilesFromB offset L (createBlocksGo pieceIndex L fuel offset) = true
  | 0, offset, h, hf => by
    have heq : offset = L := by omega
    simp [createBlocksGo, tilesFromB, heq]
  | fuel + 1, offset, h, hf => by
    rw [createBlocksGo]
    split
    · case isTrue hlt =>
      have hpos : 0 < min BLOCK_SIZE (L - offset) := by
        simp only [BLOCK_SIZE]
        omega
      have hle : offset + min BLOCK_SIZE (L - offset) ≤ L := by
        have := Nat.min_le_right BLOCK_SIZE (L - offset)
        omega
      have hf2 : L - (offset + min BLOCK_SIZE (L - offset)) ≤ fuel := by omega
      have ih := createBlocksGo_tiles pieceIndex L fuel (offset + min BLOCK_SIZE (L - offset)) hle hf2
      rw [tilesFromB]
      simp [ih, hpos]
    · case isFalse hge =>
      have heq : offset = L := le_antisymm h (not_lt.1 hge)
      simp [tilesFromB, heq]

theorem createBlocksAux_tiles (pieceIndex L offset : Nat) (h : offset ≤ L) :
    tilesFromB offset L (createBlocksAux pieceIndex L offset) = true :=
  createBlocksGo_tiles pieceIndex L (L - offset) offset h (le_refl _)

theorem createBlocksGo_length_bounds (pieceIndex L : Nat) :
    ∀ (fuel offset : Nat), ∀ b ∈ createBlocksGo pieceIndex L fuel offset,
      0 < b.length ∧ b.length ≤ BLOCK_SIZE
  | 0, offset => by
    intro b hb
    simp [createBlocksGo] at hb
  | fuel + 1, offset => by
    intro b hb
    rw [createBlocksGo] at hb
    split at hb
    · case isTrue hlt =>
      rcases List.mem_cons.1 hb with rfl | hb2
      · refine ⟨?_, Nat.min_le_left _ _⟩
        simp only [BLOCK_SIZE]
        omega
      · exact createBlocksGo_length_bounds pieceIndex L fuel _ b hb2
    · case isFalse hge =>
      simp at hb

theorem createBlocksAux_length_bounds (pieceIndex L offset : Nat) :
    ∀ b ∈ createBlocksAux pieceIndex L offset, 0 < b.length ∧ b.length ≤ BLOCK_SIZE :=
  createBlocksGo_length_bounds pieceIndex L (L - offset) offset

theorem createBlocksGo_dropLast (pieceIndex L : Nat) :
    ∀ (fuel offset : Nat), L - offset ≤ fuel →
      ∀ b ∈ (createBlocksGo pieceIndex L fuel offset).dropLast, b.length = BLOCK_SIZE
  | 0, offset, hf => by
    intro b hb
    simp [createBlocksGo] at hb
  | fuel + 1, offset, hf => by
    intro b hb
    rw [createBlocksGo] at hb
    split at hb
    · case isTrue hlt =>
      rcases hrest : createBlocksGo pieceIndex L fuel (offset + min BLOCK_SIZE (L - offset)) with _ | ⟨c, rest⟩
      · rw [hrest] at hb
        simp at hb
      · rw [hrest, List.dropLast_cons₂] at hb
        rcases List.mem_cons.1 hb with rfl | hb2
        · have hlt2 : offset + min BLOCK_SIZE (L - offset) < L := by
            by_contra hcon
            have hnil := createBlocksGo_stop pieceIndex L fuel (offset + min BLOCK_SIZE (L - offset)) hcon
            rw [hnil] at hrest
            exact List.cons_ne_nil c rest hrest.symm
          have hmin : min BLOCK_SIZE (L - offset) = BLOCK_SIZE := by
            have h1 := Nat.min_le_left BLOCK_SIZE (L - offset)
            have h2 := Nat.min_le_right BLOCK_SIZE (L - offset)
            omega
          simpa using hmin
        · have hpos : 0 < min BLOCK_SIZE (L - offset) := by
            simp only [BLOCK_SIZE]
            omega
          have hf2 : L - (offset + min BLOCK_SIZE (L - offset)) ≤ fuel := by omega
          have ih := createBlocksGo_dropLast pieceIndex L fuel (offset + min BLOCK_SIZE (L - offset)) hf2
          rw [hrest] at ih
          exact ih b hb2
    · case isFalse hge =>
      simp at hb

theorem createBlocksAux_dropLast (pieceIndex L offset : Nat) :
    ∀ b ∈ (createBlocksAux pieceIndex L offset).dropLast, b.length = BLOCK_SIZE :=
  createBlocksGo_dropLast pieceIndex L (L - offset) offset (le_refl _)

/-! Helper lemmas: the `add_block_data` loop. -/

theorem addToBlocks_none_iff (offset : Nat) (payload : List Nat) :
    ∀ bs : List Block, addToBlocks offset payload bs = none ↔
      ∀ b ∈ bs, ¬(b.offset = offset ∧ b.length = payload.length ∧ ¬b.received)
  | [] => by simp [addToBlocks]
  | b :: bs => by
    rw [addToBlocks]
    split
    · case isTrue h =>
      constructor
      · intro hc
        cases hc
      · intro hall
        exact absurd h (hall b (List.mem_cons_self b bs))
    · case isFalse h =>
      rcases haux : addToBlocks offset payload bs with _ | bs2
      · simp only [haux]
        constructor
        · intro _ c hc
          rcases List.mem_cons.1 hc with rfl | hc2
          · exact h
          · exact (addToBlocks_none_iff offset payload bs).1 haux c hc2
        · intro _
          trivial
      · simp only [haux]
        constructor
        · intro hc
          cases hc
        · intro hall
          have h2 := (addToBlocks_none_iff offset payload bs).2
            (fun c hc => hall c (List.mem_cons_of_mem b hc))
          rw [h2] at haux
          cases haux

theorem addToBlocks_some (offset : Nat) (payload : List Nat) :
    ∀ (bs bs2 : List Block), addToBlocks offset payload bs = some bs2 →
      ∃ l₁ b l₂, bs = l₁ ++ b :: l₂ ∧
        (∀ c ∈ l₁, ¬(c.offset = offset ∧ c.length = payload.length ∧ ¬c.received)) ∧
        (b.offset = offset ∧ b.length = payload.length ∧ ¬b.received) ∧
        bs2 = l₁ ++ { b with data := some payload, received := true } :: l₂
  | [], bs2, h => by simp [addToBlocks] at h
  | b :: bs, bs2, h => by
    rw [addToBlocks] at h
    split at h
    · case isTrue hb =>
      refine ⟨[], b, bs, rfl, by simp, hb, ?_⟩
      simpa using h.symm
    · case isFalse hb =>
      rcases haux : addToBlocks offset payload bs with _ | bs3
      · rw [haux] at h
        cases h
      · rw [haux] at h
        simp only [Option.some.injEq] at h
        rcases addToBlocks_some offset payload bs bs3 haux with ⟨l₁, c, l₂, hbs, h1, h2, h3⟩
        refine ⟨b :: l₁, c, l₂, by rw [hbs]; rfl, ?_, h2, ?_⟩
        · intro d hd
          rcases List.mem_cons.1 hd with rfl | hd2
          · exact hb
          · exact h1 d hd2
        · rw [← h, h3]
          rfl

/-- Structural case analysis of `add_block_data`: it either rejects with no
mutation (bound violation or no eligible block), or stores the payload and
returns true, additionally setting the completion and verification flags when
the updated block list is fully received. -/
theorem add_block_data_spec (p : Piece) (hashFn : List Nat → List Nat)
    (offset : Nat) (payload : List Nat) :
    (p.add_block_data hashFn offset payload = (p, false) ∧
      (p.length < offset + payload.length ∨ addToBlocks offset payload p.blocks = none)) ∨
    ∃ bs2, ¬ p.length < offset + payload.length ∧
      addToBlocks offset payload p.blocks = some bs2 ∧
      ((bs2.all (fun b => b.received) = true ∧
        p.add_block_data hashFn offset payload =
          ({ storedPiece p bs2 offset payload with completed := true, verified := decide (hashFn (writeSlice p.data offset payload) = p.hash_value) }, true)) ∨
       (bs2.all (fun b => b.received) = false ∧
        p.add_block_data hashFn offset payload = (storedPiece p bs2 offset payload, true))) := by
  rw [Piece.add_block_data]
  split
  · case isTrue h =>
    exact Or.inl ⟨rfl, Or.inl h⟩
  · case isFalse h =>
    rcases haux : addToBlocks offset payload p.blocks with _ | bs2
    · simp only [haux]
      exact Or.inl ⟨trivial, Or.inr trivial⟩
    · simp only [haux]
      refine Or.inr ⟨bs2, h, rfl, ?_⟩
      split
      · case isTrue hcc =>
        have hc : bs2.all (fun b => b.received) = true := hcc
        refine Or.inl ⟨hc, ?_⟩
        simp [Piece.verify, storedPiece]
      · case isFalse hcc =>
        have hc : bs2.all (fun b => b.received) = false :=
          Bool.eq_false_iff.2 (fun hx => hcc hx)
        refine Or.inr ⟨hc, ?_⟩
        simp [storedPiece]

/-! Helper lemmas: shape and received-flag preservation of the block-list
transformers. -/

theorem shape_markFirstMissing : ∀ bs : List Block,
    (markFirstMissing bs).map (fun b => (b.offset, b.length)) =
      bs.map (fun b => (b.offset, b.length))
  | [] => rfl
  | b :: bs => by
    rw [markFirstMissing]
    split <;> simp [shape_markFirstMissing bs]

theorem received_markFirstMissing : ∀ bs : List Block,
    (markFirstMissing bs).map (fun b => b.received) = bs.map (fun b => b.received)
  | [] => rfl
  | b :: bs => by
    rw [markFirstMissing]
    split <;> simp [received_markFirstMissing bs]

theorem data_markFirstMissing : ∀ bs : List Block,
    (markFirstMissing bs).map (fun b => b.data) = bs.map (fun b => b.data)
  | [] => rfl
  | b :: bs => by
    rw [markFirstMissing]
    split <;> simp [data_markFirstMissing bs]

theorem shape_markOffset (offset : Nat) : ∀ bs : List Block,
    (markOffset offset bs).map (fun b => (b.offset, b.length)) =
      bs.map (fun b => (b.offset, b.length))
  | [] => rfl
  | b :: bs => by
    rw [markOffset]
    split <;> simp [shape_markOffset offset bs]

theorem received_markOffset (offset : Nat) : ∀ bs : List Block,
    (markOffset offset bs).map (fun b => b.received) = bs.map (fun b => b.received)
  | [] => rfl
  | b :: bs => by
    rw [markOffset]
    split <;> simp [received_markOffset offset bs]

theorem shape_resetRequests : ∀ bs : List Block,
    (bs.map (fun b => if !b.received then { b with requested := false } else b)).map
        (fun b => (b.offset, b.length)) =
      bs.map (fun b => (b.offset, b.length))
  | [] => rfl
  | b :: bs => by
    simp only [List.map_cons, shape_resetRequests bs]
    by_cases hb : b.received <;> simp [hb]

theorem received_resetRequests : ∀ bs : List Block,
    (bs.map (fun b => if !b.received then { b with requested := false } else b)).map
        (fun b => b.received) =
      bs.map (fun b => b.received)
  | [] => rfl
  | b :: bs => by
    simp only [List.map_cons, received_resetRequests bs]
    by_cases hb : b.received <;> simp [hb]

theorem shape_resetPiece (bs : List Block) :
    (bs.map (fun b => { b with data := none, received := false, requested := false })).map
        (fun b => (b.offset, b.length)) =
      bs.map (fun b => (b.offset, b.length)) := by
  induction bs with
  | nil => rfl
  | cons b bs ih => simp [ih]

theorem all_received_of_map_eq {bs cs : List Block}
    (h : cs.map (fun b => b.received) = bs.map (fun b => b.received))
    (hall : ∀ b ∈ bs, b.received = true) : ∀ b ∈ cs, b.received = true := by
  intro b hb
  have h2 : b.received ∈ cs.map (fun b => b.received) := List.mem_map_of_mem _ hb
  rw [h] at h2
  rcases List.mem_map.1 h2 with ⟨c, hc, hcb⟩
  rw [← hcb]
  exact hall c hc

theorem shape_addToBlocks {offset : Nat} {payload : List Nat} {bs bs2 : List Block}
    (h : addToBlocks offset payload bs = some bs2) :
    bs2.map (fun b => (b.offset, b.length)) = bs.map (fun b => (b.offset, b.length)) := by
  rcases addToBlocks_some offset payload bs bs2 h with ⟨l₁, b, l₂, hbs, _, _, hbs2⟩
  rw [hbs, hbs2]
  simp

theorem add_block_data_false_iff (p : Piece) (hashFn : List Nat → List Nat)
    (offset : Nat) (payload : List Nat) :
    (p.add_block_data hashFn offset payload).2 = false ↔
      (p.length < offset + payload.length ∨ addToBlocks offset payload p.blocks = none) := by
  rcases add_block_data_spec p hashFn offset payload with ⟨heq, hcase⟩ | ⟨bs2, hb, haux, hcase⟩
  · rw [heq]
    simpa using hcase
  · rcases hcase with ⟨_, heq⟩ | ⟨_, heq⟩ <;>
      · rw [heq]
        simp [hb, haux]

theorem add_block_data_false_frame (p : Piece) (hashFn : List Nat → List Nat)
    (offset : Nat) (payload : List Nat)
    (h : (p.add_block_data hashFn offset payload).2 = false) :
    (p.add_block_data hashFn offset payload).1 = p := by
  rcases add_block_data_spec p hashFn offset payload with ⟨heq, _⟩ | ⟨bs2, _, _, hcase⟩
  · rw [heq]
  · rcases hcase with ⟨_, heq⟩ | ⟨_, heq⟩ <;>
      · rw [heq] at h
        cases h

theorem add_block_data_fields (p : Piece) (hashFn : List Nat → List Nat)
    (offset : Nat) (payload : List Nat) :
    ((p.add_block_data hashFn offset payload).1).index = p.index ∧
    ((p.add_block_data hashFn offset payload).1).length = p.length ∧
    ((p.add_block_data hashFn offset payload).1).hash_value = p.hash_value ∧
    shape ((p.add_block_data hashFn offset payload).1) = shape p := by
  rcases add_block_data_spec p hashFn offset payload with ⟨heq, _⟩ | ⟨bs2, _, haux, hcase⟩
  · rw [heq]
    exact ⟨rfl, rfl, rfl, rfl⟩
  · have hsh := shape_addToBlocks haux
    rcases hcase with ⟨_, heq⟩ | ⟨_, heq⟩ <;>
      · rw [heq]
        exact ⟨rfl, rfl, rfl, by simpa [shape, storedPiece] using hsh⟩

theorem add_block_data_completed_received (p : Piece) (hashFn : List Nat → List Nat)
    (offset : Nat) (payload : List Nat)
    (hc : ((p.add_block_data hashFn offset payload).1).completed = true)
    (hpc : p.completed = false) :
    ∀ b ∈ ((p.add_block_data hashFn offset payload).1).blocks, b.received = true := by
  rcases add_block_data_spec p hashFn offset payload with ⟨heq, _⟩ | ⟨bs2, _, haux, hcase⟩
  · rw [heq] at hc
    rw [hpc] at hc
    cases hc
  · rcases hcase with ⟨hall, heq⟩ | ⟨_, heq⟩
    · rw [heq]
      intro b hb
      exact List.all_eq_true.1 hall b hb
    · rw [heq] at hc
      have : p.completed = true := hc
      rw [hpc] at this
      cases this

theorem add_block_data_verified_eq (p : Piece) (hashFn : List Nat → List Nat)
    (offset : Nat) (payload : List Nat)
    (hc : ((p.add_block_data hashFn offset payload).1).completed = true)
    (hpc : p.completed = false) :
    ((p.add_block_data hashFn offset payload).1).verified =
      decide (hashFn (((p.add_block_data hashFn offset payload).1).data) = p.hash_value) := by
  rcases add_block_data_spec p hashFn offset payload with ⟨heq, _⟩ | ⟨bs2, _, haux, hcase⟩
  · rw [heq] at hc
    rw [hpc] at hc
    cases hc
  · rcases hcase with ⟨_, heq⟩ | ⟨_, heq⟩
    · rw [heq]
      simp [storedPiece]
    · rw [heq] at hc
      have : p.completed = true := hc
      rw [hpc] at this
      cases this

/-- Structural case analysis of `add_piece_data`: unknown index, the
completed-flag short-circuit, the verified-success path (index added to the
completed set and the callback delivered), the verification-failure path
(full piece reset), and the plain path that just forwards the inner result. -/
theorem addPieceData_spec (hashFn : List Nat → List Nat) (S : PieceManager)
    (i offset : Nat) (payload : List Nat) :
    (¬ i < S.pieces.length ∧ addPieceData hashFn S i offset payload = ⟨S, false, none⟩) ∨
    (i < S.pieces.length ∧ (pieceAt S i).completed = true ∧
      addPieceData hashFn S i offset payload = ⟨S, true, none⟩) ∨
    (i < S.pieces.length ∧ (pieceAt S i).completed = false ∧
      ((((pieceAt S i).add_block_data hashFn offset payload).2 = true ∧
        (((pieceAt S i).add_block_data hashFn offset payload).1).completed = true ∧
        (((pieceAt S i).add_block_data hashFn offset payload).1).verified = true ∧
        addPieceData hashFn S i offset payload =
          ⟨{ S with pieces := S.pieces.set i (((pieceAt S i).add_block_data hashFn offset payload).1), completed_pieces := insert i S.completed_pieces }, true,
            some (i, (((pieceAt S i).add_block_data hashFn offset payload).1).data)⟩) ∨
       ((((pieceAt S i).add_block_data hashFn offset payload).2 = true ∧
        (((pieceAt S i).add_block_data hashFn offset payload).1).completed = true ∧
        (((pieceAt S i).add_block_data hashFn offset payload).1).verified = false ∧
        addPieceData hashFn S i offset payload =
          ⟨{ S with pieces := S.pieces.set i (resetPiece (((pieceAt S i).add_block_data hashFn offset payload).1)) }, true, none⟩)) ∨
       (¬((((pieceAt S i).add_block_data hashFn offset payload).2 = true) ∧
          (((pieceAt S i).add_block_data hashFn offset payload).1).completed = true) ∧
        addPieceData hashFn S i offset payload =
          ⟨{ S with pieces := S.pieces.set i (((pieceAt S i).add_block_data hashFn offset payload).1) }, ((pieceAt S i).add_block_data hashFn offset payload).2, none⟩))) := by
  simp only [addPieceData]
  split
  · case isTrue hi =>
    split
    · case isTrue hcomp =>
      exact Or.inr (Or.inl ⟨hi, hcomp, rfl⟩)
    · case isFalse hcomp =>
      have hcf : (pieceAt S i).completed = false := Bool.eq_false_iff.2 (fun hx => hcomp hx)
      refine Or.inr (Or.inr ⟨hi, hcf, ?_⟩)
      split
      · case isTrue hguard =>
        rw [Bool.and_eq_true] at hguard
        rcases hguard with ⟨h2, hcc⟩
        split
        · case isTrue hv =>
          refine Or.inl ⟨h2, hcc, hv, ?_⟩
          rw [h2]
        · case isFalse hv =>
          have hvf : (((pieceAt S i).add_block_data hashFn offset payload).1).verified = false :=
            Bool.eq_false_iff.2 (fun hx => hv hx)
          refine Or.inr (Or.inl ⟨h2, hcc, hvf, ?_⟩)
          rw [List.set_set, h2]
      · case isFalse hguard =>
        refine Or.inr (Or.inr ⟨?_, rfl⟩)
        intro ⟨h2, hcc⟩
        refine hguard ?_
        rw [Bool.and_eq_true]
        exact ⟨h2, hcc⟩
  · case isFalse hi =>
    exact Or.inl ⟨hi, rfl⟩

/-! Helper lemmas: per-operation effects on the manager state. -/

theorem completedOK_congr {hashFn : List Nat → List Nat} {S T : PieceManager} {j : Nat}
    (hp : T.pieces = S.pieces) (h : CompletedOK hashFn S j) : CompletedOK hashFn T j := by
  rcases h with ⟨h1, h2, h3, h4, h5⟩
  exact ⟨by rw [hp]; exact h1, by rw [pieceAt, hp]; exact h2, by rw [pieceAt, hp]; exact h3,
    by rw [pieceAt, hp]; exact h4, by rw [pieceAt, hp]; exact h5⟩

theorem completedOK_of_blocks_update {hashFn : List Nat → List Nat} (S : PieceManager)
    (i : Nat) (bs2 : List Block) {j : Nat}
    (hrecv : bs2.map (fun b => b.received) = ((pieceAt S i).blocks).map (fun b => b.received))
    (h : CompletedOK hashFn S j) :
    CompletedOK hashFn { S with pieces := S.pieces.set i { pieceAt S i with blocks := bs2 } } j := by
  rcases h with ⟨h1, h2, h3, h4, h5⟩
  have hAt := pieceAt_update S i { pieceAt S i with blocks := bs2 } j
  by_cases hij : i = j ∧ i < S.pieces.length
  · rw [if_pos hij] at hAt
    rcases hij with ⟨rfl, hi⟩
    refine ⟨by simpa using h1, ?_, by rw [hAt]; exact h3, by rw [hAt]; exact h4,
      by rw [hAt]; exact h5⟩
    rw [hAt]
    exact all_received_of_map_eq hrecv h2
  · rw [if_neg hij] at hAt
    exact ⟨by simpa using h1, by rw [hAt]; exact h2, by rw [hAt]; exact h3,
      by rw [hAt]; exact h4, by rw [hAt]; exact h5⟩

theorem getNextRequest_state_cases (S : PieceManager) (avail : List Nat) :
    (getNextRequest S avail).2 = S ∨
    ∃ i, i < S.pieces.length ∧ i ∉ S.completed_pieces ∧
      (getNextRequest S avail).2 =
        { S with pieces := S.pieces.set i { pieceAt S i with blocks := markFirstMissing (pieceAt S i).blocks } } := by
  rw [getNextRequest]
  split
  · exact Or.inl rfl
  · rcases hres : (walkRequest S (candidateOrder S avail)).1 with _ | ⟨i, offset, blen⟩
    · exact Or.inl (walkRequest_none _ hres).1
    · rcases walkRequest_some _ i offset blen hres with ⟨l₁, l₂, hl, _, b, _, _, _, hst⟩
      have hmem : i ∈ candidateOrder S avail := by
        rw [hl]
        exact List.mem_append_right l₁ (List.mem_cons_self i l₂)
      have hneed := mem_neededPieces.1 (mem_candidateOrder hmem)
      exact Or.inr ⟨i, hneed.2.1, hneed.2.2, hst⟩

theorem foldl_setPiecePriority_fields (f : Nat → Int) :
    ∀ (l : List Nat) (S : PieceManager),
      (l.foldl (fun T i => setPiecePriority T i (f i)) S) =
        { S with piece_priorities := l.foldl (fun ps i => priorityUpdate ps i (f i)) S.piece_priorities }
  | [], S => rfl
  | i :: l, S => by
    rw [List.foldl_cons, List.foldl_cons, foldl_setPiecePriority_fields f l]
    rfl

theorem setSequentialDownload_fields {S T : PieceManager} {e : Bool}
    (h : setSequentialDownload S e = some T) :
    T.pieces = S.pieces ∧ T.completed_pieces = S.completed_pieces := by
  simp only [setSequentialDownload] at h
  split at h
  · split at h
    · case isTrue h0 =>
      simp only [Option.some.injEq] at h
      rw [← h]
      exact ⟨rfl, rfl⟩
    · split at h
      · cases h
      · simp only [Option.some.injEq] at h
        rw [← h, foldl_setPiecePriority_fields]
        exact ⟨rfl, rfl⟩
  · simp only [Option.some.injEq] at h
    rw [← h]
    exact ⟨rfl, rfl⟩

theorem step_effects_trivial {hashFn : List Nat → List Nat} {S T : PieceManager}
    (hp : T.pieces = S.pieces) (hc : T.completed_pieces = S.completed_pieces) :
    T.pieces.length = S.pieces.length ∧
    (∀ j, shape (pieceAt T j) = shape (pieceAt S j)) ∧
    S.completed_pieces ⊆ T.completed_pieces ∧
    (GoodState hashFn S → GoodState hashFn T ∧
      ∀ j ∈ S.completed_pieces, (pieceAt T j).data = (pieceAt S j).data) := by
  refine ⟨by rw [hp], fun j => by rw [pieceAt, pieceAt, hp], by rw [hc], fun hg => ⟨?_, ?_⟩⟩
  · intro j hj
    rw [hc] at hj
    exact completedOK_congr hp (hg j hj)
  · intro j _
    rw [pieceAt, pieceAt, hp]

theorem step_effects_blocks_update (hashFn : List Nat → List Nat) (S : PieceManager)
    (i : Nat) (bs2 : List Block)
    (hsh : bs2.map (fun b => (b.offset, b.length)) =
      ((pieceAt S i).blocks).map (fun b => (b.offset, b.length)))
    (hrecv : bs2.map (fun b => b.received) = ((pieceAt S i).blocks).map (fun b => b.received)) :
    ({ S with pieces := S.pieces.set i { pieceAt S i with blocks := bs2 } } : PieceManager).pieces.length = S.pieces.length ∧
    (∀ j, shape (pieceAt ({ S with pieces := S.pieces.set i { pieceAt S i with blocks := bs2 } } : PieceManager) j) = shape (pieceAt S j)) ∧
    S.completed_pieces ⊆ ({ S with pieces := S.pieces.set i { pieceAt S i with blocks := bs2 } } : PieceManager).completed_pieces ∧
    (GoodState hashFn S → GoodState hashFn { S with pieces := S.pieces.set i { pieceAt S i with blocks := bs2 } } ∧
      ∀ j ∈ S.completed_pieces,
        (pieceAt ({ S with pieces := S.pieces.set i { pieceAt S i with blocks := bs2 } } : PieceManager) j).data = (pieceAt S j).data) := by
  have hAt : ∀ j, pieceAt { S with pieces := S.pieces.set i { pieceAt S i with blocks := bs2 } } j =
      if i = j ∧ i < S.pieces.length then { pieceAt S i with blocks := bs2 } else pieceAt S j :=
    fun j => pieceAt_update S i { pieceAt S i with blocks := bs2 } j
  refine ⟨by simp, ?_, Finset.Subset.refl _, fun hg => ⟨?_, ?_⟩⟩
  · intro j
    rw [hAt j]
    by_cases hij : i = j ∧ i < S.pieces.length
    · rw [if_pos hij]
      rcases hij with ⟨rfl, _⟩
      simpa [shape] using hsh
    · rw [if_neg hij]
  · intro j hj
    exact completedOK_of_blocks_update S i bs2 hrecv (hg j hj)
  · intro j _
    rw [hAt j]
    by_cases hij : i = j ∧ i < S.pieces.length
    · rw [if_pos hij]
      rcases hij with ⟨rfl, _⟩
      rfl
    · rw [if_neg hij]

/-- Per-step safety: every public operation preserves the tracked-piece count
and every piece's (offset, length) partition; it never removes an index from
the completed set; and, from a state satisfying the completed-set invariant,
it preserves that invariant and the assembly buffers of completed pieces. -/
theorem step_effects (hashFn : List Nat → List Nat) {S T : PieceManager}
    (hstep : Step hashFn S T) :
    T.pieces.length = S.pieces.length ∧
    (∀ j, shape (pieceAt T j) = shape (pieceAt S j)) ∧
    S.completed_pieces ⊆ T.completed_pieces ∧
    (GoodState hashFn S → GoodState hashFn T ∧
      ∀ j ∈ S.completed_pieces, (pieceAt T j).data = (pieceAt S j).data) := by
  cases hstep with
  | addPiece i offset payload =>
    rcases addPieceData_spec hashFn S i offset payload with ⟨hi, heq⟩ | ⟨hi, hcomp, heq⟩ |
      ⟨hi, hcf, hcase⟩
    · rw [heq]
      exact step_effects_trivial rfl rfl
    · rw [heq]
      exact step_effects_trivial rfl rfl
    · rcases hcase with ⟨h2, hcc, hv, heq⟩ | ⟨h2, hcc, hv, heq⟩ | ⟨hng, heq⟩
      · -- verified success: the piece is stored and the index inserted
        rw [heq]
        rcases add_block_data_fields (pieceAt S i) hashFn offset payload with ⟨_, _, hhash, hshp⟩
        have hAt : ∀ j, pieceAt { S with pieces := S.pieces.set i (((pieceAt S i).add_block_data hashFn offset payload).1), completed_pieces := insert i S.completed_pieces } j =
            if i = j ∧ i < S.pieces.length then ((pieceAt S i).add_block_data hashFn offset payload).1 else pieceAt S j := by
          intro j
          show (S.pieces.set i (((pieceAt S i).add_block_data hashFn offset payload).1)).getD j default = _
          exact getD_set S.pieces i j _
        refine ⟨by simp, ?_, ?_, fun hg => ⟨?_, ?_⟩⟩
        · intro j
          rw [hAt j]
          by_cases hij : i = j ∧ i < S.pieces.length
          · rw [if_pos hij]
            rcases hij with ⟨rfl, _⟩
            exact hshp
          · rw [if_neg hij]
        · intro j hj
          exact Finset.mem_insert_of_mem hj
        · intro j hj
          rcases Finset.mem_insert.1 hj with rfl | hj2
          · refine ⟨by simpa using hi, ?_, ?_, ?_, ?_⟩ <;> rw [hAt j, if_pos ⟨rfl, hi⟩]
            · exact add_block_data_completed_received (pieceAt S j) hashFn offset payload hcc hcf
            · exact hcc
            · exact hv
            · have hveq := add_block_data_verified_eq (pieceAt S j) hashFn offset payload hcc hcf
              rw [hv] at hveq
              have hdec := of_decide_eq_true hveq.symm
              rw [hhash]
              exact hdec
          · have hj3 := hg j hj2
            have hij : ¬ (i = j ∧ i < S.pieces.length) := by
              intro hand
              have hcontra := hj3.2.2.1
              rw [← hand.1, hcf] at hcontra
              cases hcontra
            rcases hj3 with ⟨g1, g2, g3, g4, g5⟩
            refine ⟨by simpa using g1, ?_, ?_, ?_, ?_⟩ <;> rw [hAt j, if_neg hij]
            · exact g2
            · exact g3
            · exact g4
            · exact g5
        · intro j hj
          have hij : ¬ (i = j ∧ i < S.pieces.length) := by
            intro hand
            have hcontra := (hg j hj).2.2.1
            rw [← hand.1, hcf] at hcontra
            cases hcontra
          rw [hAt j, if_neg hij]
      · -- verification failure: the piece is reset in place
        rw [heq]
        have hAt : ∀ j, pieceAt { S with pieces := S.pieces.set i (resetPiece (((pieceAt S i).add_block_data hashFn offset payload).1)) } j =
            if i = j ∧ i < S.pieces.length then resetPiece (((pieceAt S i).add_block_data hashFn offset payload).1) else pieceAt S j := by
          intro j
          show (S.pieces.set i _).getD j default = _
          exact getD_set S.pieces i j _
        rcases add_block_data_fields (pieceAt S i) hashFn offset payload with ⟨_, _, _, hshp⟩
        refine ⟨by simp, ?_, Finset.Subset.refl _, fun hg => ⟨?_, ?_⟩⟩
        · intro j
          rw [hAt j]
          by_cases hij : i = j ∧ i < S.pieces.length
          · rw [if_pos hij]
            rcases hij with ⟨rfl, _⟩
            rw [← hshp]
            simp only [shape, resetPiece]
            exact shape_resetPiece _
          · rw [if_neg hij]
        · intro j hj
          have hij : ¬ (i = j ∧ i < S.pieces.length) := by
            intro hand
            have hcontra := (hg j hj).2.2.1
            rw [← hand.1, hcf] at hcontra
            cases hcontra
          rcases hg j hj with ⟨g1, g2, g3, g4, g5⟩
          refine ⟨by simpa using g1, ?_, ?_, ?_, ?_⟩ <;> rw [hAt j, if_neg hij]
          · exact g2
          · exact g3
          · exact g4
          · exact g5
        · intro j hj
          have hij : ¬ (i = j ∧ i < S.pieces.length) := by
            intro hand
            have hcontra := (hg j hj).2.2.1
            rw [← hand.1, hcf] at hcontra
            cases hcontra
          rw [hAt j, if_neg hij]
      · -- plain store (or rejected submission): piece replaced by the inner result
        rw [heq]
        have hAt : ∀ j, pieceAt { S with pieces := S.pieces.set i (((pieceAt S i).add_block_data hashFn offset payload).1) } j =
            if i = j ∧ i < S.pieces.length then ((pieceAt S i).add_block_data hashFn offset payload).1 else pieceAt S j := by
          intro j
          show (S.pieces.set i _).getD j default = _
          exact getD_set S.pieces i j _
        rcases add_block_data_fields (pieceAt S i) hashFn offset payload with ⟨_, _, _, hshp⟩
        refine ⟨by simp, ?_, Finset.Subset.refl _, fun hg => ⟨?_, ?_⟩⟩
        · intro j
          rw [hAt j]
          by_cases hij : i = j ∧ i < S.pieces.length
          · rw [if_pos hij]
            rcases hij with ⟨rfl, _⟩
            exact hshp
          · rw [if_neg hij]
        · intro j hj
          have hij : ¬ (i = j ∧ i < S.pieces.length) := by
            intro hand
            have hcontra := (hg j hj).2.2.1
            rw [← hand.1, hcf] at hcontra
            cases hcontra
          rcases hg j hj with ⟨g1, g2, g3, g4, g5⟩
          refine ⟨by simpa using g1, ?_, ?_, ?_, ?_⟩ <;> rw [hAt j, if_neg hij]
          · exact g2
          · exact g3
          · exact g4
          · exact g5
        · intro j hj
          have hij : ¬ (i = j ∧ i < S.pieces.length) := by
            intro hand
            have hcontra := (hg j hj).2.2.1
            rw [← hand.1, hcf] at hcontra
            cases hcontra
          rw [hAt j, if_neg hij]
  | nextReq avail =>
    rcases getNextRequest_state_cases S avail with heq | ⟨i, hi, _, heq⟩
    · rw [heq]
      exact step_effects_trivial rfl rfl
    · rw [heq]
      exact step_effects_blocks_update hashFn S i _
        (shape_markFirstMissing _) (received_markFirstMissing _)
  | markReq i offset =>
    rw [markBlockRequested]
    split
    · exact step_effects_blocks_update hashFn S i _
        (shape_markOffset offset _) (received_markOffset offset _)
    · exact step_effects_trivial rfl rfl
  | resetReq i =>
    rw [resetPieceRequests]
    split
    · simp only [Piece.reset_block_requests]
      exact step_effects_blocks_update hashFn S i _
        (shape_resetRequests _) (received_resetRequests _)
    · exact step_effects_trivial rfl rfl
  | checkRate now n =>
    exact step_effects_trivial rfl rfl
  | updateRate now n =>
    exact step_effects_trivial rfl rfl
  | setLimit n =>
    exact step_effects_trivial rfl rfl
  | setPrio i v =>
    exact step_effects_trivial rfl rfl
  | setHP i =>
    exact step_effects_trivial rfl rfl
  | seqDL e T2 hT =>
    rcases setSequentialDownload_fields hT with ⟨hp, hc⟩
    exact step_effects_trivial hp hc

/-! Helper lemmas: reachability and the priority table. -/

theorem goodState_init (hashFn : List Nat → List Nat) (totalPieces : Nat)
    (plen : Nat → Nat) (phash : Nat → List Nat) :
    GoodState hashFn (initPM totalPieces plen phash) := by
  intro i hi
  simp [initPM] at hi

theorem goodState_reachable (hashFn : List Nat → List Nat) (totalPieces : Nat)
    (plen : Nat → Nat) (phash : Nat → List Nat) (S : PieceManager)
    (h : Reachable hashFn totalPieces plen phash S) : GoodState hashFn S := by
  induction h with
  | refl => exact goodState_init hashFn totalPieces plen phash
  | tail _ hstep ih => exact ((step_effects hashFn hstep).2.2.2 ih).1

theorem priorityGet_update (ps : List (Nat × Int)) (i : Nat) (v : Int) (j : Nat) :
    priorityGet (priorityUpdate ps i v) j =
      if i = j ∧ 1 ≤ v ∧ v ≤ 10 then v else priorityGet ps j := by
  rw [priorityUpdate]
  split
  · case isTrue hv =>
    by_cases hij : i = j
    · subst hij
      simp [priorityGet, List.lookup, hv]
    · have hne : (j == i) = false := beq_eq_false_iff_ne.2 (fun hx => hij hx.symm)
      simp [priorityGet, List.lookup, hne, hij]
  · case isFalse hv =>
    rw [if_neg (fun hand => hv hand.2)]

theorem priorityGet_range_fold (f : Nat → Int) :
    ∀ (n : Nat) (ps : List (Nat × Int)) (j : Nat),
      priorityGet ((List.range n).foldl (fun ps2 i => priorityUpdate ps2 i (f i)) ps) j =
        if j < n ∧ 1 ≤ f j ∧ f j ≤ 10 then f j else priorityGet ps j
  | 0, ps, j => by simp
  | n + 1, ps, j => by
    rw [List.range_succ, List.foldl_append, List.foldl_cons, List.foldl_nil, priorityGet_update,
      priorityGet_range_fold f n ps j]
    by_cases hjn : n = j
    · subst hjn
      by_cases hf : 1 ≤ f n ∧ f n ≤ 10
      · rw [if_pos ⟨rfl, hf⟩, if_pos ⟨Nat.lt_succ_self n, hf⟩]
      · rw [if_neg (fun hand => hf hand.2), if_neg (fun hand => hf hand.2),
          if_neg (fun hand => hf hand.2)]
    · rw [if_neg (fun hand => hjn hand.1)]
      by_cases hj : j < n ∧ 1 ≤ f j ∧ f j ≤ 10
      · rw [if_pos hj, if_pos ⟨Nat.lt_succ_of_lt hj.1, hj.2⟩]
      · have hj2 : ¬ (j < n + 1 ∧ 1 ≤ f j ∧ f j ≤ 10) := by
          intro hand
          exact hj ⟨by omega, hand.2⟩
        rw [if_neg hj, if_neg hj2]

theorem setSequentialDownload_enable (S : PieceManager) (h10 : 10 ≤ S.pieces.length) :
    setSequentialDownload S true =
      some { S with piece_priorities := (List.range S.pieces.length).foldl (fun ps i => priorityUpdate ps i (seqPriority S.pieces.length i)) S.piece_priorities } := by
  have h0 : ¬ S.pieces.length = 0 := by omega
  have hd : ¬ S.pieces.length / 10 = 0 := by omega
  simp only [setSequentialDownload, if_pos rfl, if_neg h0, if_neg hd, if_true]
  rw [foldl_setPiecePriority_fields]
  simp only [seqPriority]

/-! Claim theorems. -/

/-- C6: for every piece created with length L > 0, the blocks' (offset,
length) ranges exactly tile [0, L) in order with no gaps or overlaps, every
non-last block has length exactly 16384 bytes, the last block's length is at
most 16384 bytes, and the partition of every tracked piece is fixed: no
public operation changes any piece's (offset, length) list. -/
theorem C6_block_partition (idx L : Nat) (hv : List Nat) (_hL : 0 < L) :
    tilesFromB 0 L (mkPiece idx L hv).blocks = true ∧
    (∀ b ∈ (mkPiece idx L hv).blocks.dropLast, b.length = BLOCK_SIZE) ∧
    (∀ b ∈ (mkPiece idx L hv).blocks, 0 < b.length ∧ b.length ≤ BLOCK_SIZE) ∧
    (∀ (hashFn : List Nat → List Nat) (S T : PieceManager), Step hashFn S T →
      T.pieces.length = S.pieces.length ∧ ∀ j, shape (pieceAt T j) = shape (pieceAt S j)) := by
  refine ⟨createBlocksAux_tiles idx L 0 (Nat.zero_le L), createBlocksAux_dropLast idx L 0,
    createBlocksAux_length_bounds idx L 0, ?_⟩
  intro hashFn S T hstep
  exact ⟨(step_effects hashFn hstep).1, (step_effects hashFn hstep).2.1⟩

theorem C6_block_partition_witness :
    0 < 20000 ∧
    (tilesFromB 0 20000 (mkPiece 3 20000 []).blocks = true ∧
      (∀ b ∈ (mkPiece 3 20000 []).blocks.dropLast, b.length = BLOCK_SIZE) ∧
      (∀ b ∈ (mkPiece 3 20000 []).blocks, 0 < b.length ∧ b.length ≤ BLOCK_SIZE) ∧
      (∀ (hashFn : List Nat → List Nat) (S T : PieceManager), Step hashFn S T →
        T.pieces.length = S.pieces.length ∧ ∀ j, shape (pieceAt T j) = shape (pieceAt S j))) :=
  ⟨by decide, C6_block_partition 3 20000 [] (by decide)⟩

/-- C4: `add_block_data` returns false, leaving the piece entirely unmutated,
exactly when the submission overruns the piece, no block matches the exact
(offset, length) pair, or the (unique, by distinct offsets) matching block is
already received; and a successful submission makes the identical resubmission
return false with the piece unchanged. -/
theorem C4_add_block_data_rejection (hashFn : List Nat → List Nat) (p : Piece)
    (offset : Nat) (payload : List Nat)
    (hnd : (p.blocks.map Block.offset).Nodup) :
    ((p.add_block_data hashFn offset payload).2 = false ↔
      (p.length < offset + payload.length ∨
       (∀ b ∈ p.blocks, ¬(b.offset = offset ∧ b.length = payload.length)) ∨
       (∃ b ∈ p.blocks, b.offset = offset ∧ b.length = payload.length ∧ b.received = true))) ∧
    ((p.add_block_data hashFn offset payload).2 = false →
      (p.add_block_data hashFn offset payload).1 = p) ∧
    ((p.add_block_data hashFn offset payload).2 = true →
      (((p.add_block_data hashFn offset payload).1).add_block_data hashFn offset payload).2 = false ∧
      (((p.add_block_data hashFn offset payload).1).add_block_data hashFn offset payload).1 =
        (p.add_block_data hashFn offset payload).1) := by
  have hinj := List.inj_on_of_nodup_map hnd
  refine ⟨?_, add_block_data_false_frame p hashFn offset payload, ?_⟩
  · rw [add_block_data_false_iff, addToBlocks_none_iff]
    constructor
    · rintro (hb | hall)
      · exact Or.inl hb
      · by_cases hm : ∃ b ∈ p.blocks, b.offset = offset ∧ b.length = payload.length
        · rcases hm with ⟨b, hbmem, hbm⟩
          have hrecv : b.received = true := by
            by_contra hr
            exact hall b hbmem ⟨hbm.1, hbm.2, hr⟩
          exact Or.inr (Or.inr ⟨b, hbmem, hbm.1, hbm.2, hrecv⟩)
        · refine Or.inr (Or.inl ?_)
          intro b hb hbm
          exact hm ⟨b, hb, hbm⟩
    · rintro (hb | hnom | ⟨b0, hb0, ho0, hl0, hr0⟩)
      · exact Or.inl hb
      · refine Or.inr ?_
        rintro b hb ⟨h1, h2, _⟩
        exact hnom b hb ⟨h1, h2⟩
      · refine Or.inr ?_
        rintro b hb ⟨h1, h2, h3⟩
        have hbb : b = b0 := hinj hb hb0 (by rw [h1, ho0])
        rw [hbb] at h3
        exact h3 hr0
  · intro hok
    rcases add_block_data_spec p hashFn offset payload with ⟨heq, _⟩ | ⟨bs2, hbound, haux, hcase⟩
    · rw [heq] at hok
      cases hok
    · rcases addToBlocks_some offset payload p.blocks bs2 haux with ⟨l₁, b, l₂, hpb, h1, h2, hbs2⟩
      have hlen : ((p.add_block_data hashFn offset payload).1).length = p.length :=
        (add_block_data_fields p hashFn offset payload).2.1
      have hblocks : ((p.add_block_data hashFn offset payload).1).blocks = bs2 := by
        rcases hcase with ⟨_, heq⟩ | ⟨_, heq⟩ <;> rw [heq] <;> rfl
      have hnone : addToBlocks offset payload bs2 = none := by
        rw [addToBlocks_none_iff]
        rintro c hc ⟨hc1, hc2, hc3⟩
        rw [hbs2] at hc
        rcases List.mem_append.1 hc with hcl | hcr
        · exact h1 c hcl ⟨hc1, hc2, hc3⟩
        · rcases List.mem_cons.1 hcr with rfl | hcl2
          · exact hc3 rfl
          · have hoff : b.offset ∉ l₂.map Block.offset := by
              rw [hpb, List.map_append, List.map_cons] at hnd
              have hsub : ((b.offset :: l₂.map Block.offset) : List Nat).Nodup :=
                (List.sublist_append_right (l₁.map Block.offset) _).nodup hnd
              exact (List.nodup_cons.1 hsub).1
            refine hoff ?_
            have hco : c.offset ∈ l₂.map Block.offset := List.mem_map_of_mem _ hcl2
            rw [hc1] at hco
            rw [h2.1]
            exact hco
      have hfalse : (((p.add_block_data hashFn offset payload).1).add_block_data hashFn offset payload).2 = false := by
        rw [add_block_data_false_iff]
        refine Or.inr ?_
        rw [hblocks]
        exact hnone
      exact ⟨hfalse, add_block_data_false_frame _ hashFn offset payload hfalse⟩

theorem C4_add_block_data_rejection_witness :
    ((mkPiece 0 5 []).blocks.map Block.offset).Nodup ∧
    (((mkPiece 0 5 []).add_block_data hashId 0 [1, 2, 3, 4, 5]).2 = false ↔
      ((mkPiece 0 5 []).length < 0 + [1, 2, 3, 4, 5].length ∨
       (∀ b ∈ (mkPiece 0 5 []).blocks, ¬(b.offset = 0 ∧ b.length = [1, 2, 3, 4, 5].length)) ∨
       (∃ b ∈ (mkPiece 0 5 []).blocks, b.offset = 0 ∧ b.length = [1, 2, 3, 4, 5].length ∧ b.received = true))) ∧
    (((mkPiece 0 5 []).add_block_data hashId 0 [1, 2, 3, 4, 5]).2 = false →
      ((mkPiece 0 5 []).add_block_data hashId 0 [1, 2, 3, 4, 5]).1 = mkPiece 0 5 []) ∧
    (((mkPiece 0 5 []).add_block_data hashId 0 [1, 2, 3, 4, 5]).2 = true →
      ((((mkPiece 0 5 []).add_block_data hashId 0 [1, 2, 3, 4, 5]).1).add_block_data hashId 0 [1, 2, 3, 4, 5]).2 = false ∧
      ((((mkPiece 0 5 []).add_block_data hashId 0 [1, 2, 3, 4, 5]).1).add_block_data hashId 0 [1, 2, 3, 4, 5]).1 =
        ((mkPiece 0 5 []).add_block_data hashId 0 [1, 2, 3, 4, 5]).1) := by
  refine ⟨by decide, ?_⟩
  exact C4_add_block_data_rejection hashId (mkPiece 0 5 []) 0 [1, 2, 3, 4, 5] (by decide)

theorem rate_if_eq (w : List (ℚ × Nat)) (s : ℚ) :
    (if w.isEmpty then (0 : ℚ) else (w.map (fun tb => ((tb.2 : Nat) : ℚ))).sum / s) =
      (w.map (fun tb => ((tb.2 : Nat) : ℚ))).sum / s := by
  rcases w with _ | ⟨a, w⟩
  · simp
  · rfl

/-- C7: `check_rate_limit(n)` first prunes (and stores back) every sample
older than the window, then returns true iff the windowed byte sum divided by
the window length, plus `n` divided by the window length, is at most the
limit; `update_rate_stats(n)` only appends a sample and never prunes. With
limit 1000 bytes/s and the 5 s window, immediately after
`update_rate_stats(5000)`, `check_rate_limit(0)` is true and
`check_rate_limit(1000)` is false, and once the window has elapsed
`check_rate_limit(1000)` is true again. -/
theorem C7_rate_limiter :
    (∀ (S : PieceManager) (now : ℚ) (n : Nat),
      (checkRateLimit S now n).1 =
        { S with bytes_downloaded_window :=
            S.bytes_downloaded_window.filter (fun tb => decide (now - tb.1 ≤ S.rate_window_size)) } ∧
      ((checkRateLimit S now n).2 = true ↔
        ((S.bytes_downloaded_window.filter (fun tb => decide (now - tb.1 ≤ S.rate_window_size))).map (fun tb => ((tb.2 : Nat) : ℚ))).sum / S.rate_window_size + (n : ℚ) / S.rate_window_size ≤ S.download_rate_limit) ∧
      updateRateStats S now n =
        { S with bytes_downloaded_window := S.bytes_downloaded_window ++ [(now, n)] }) ∧
    ((checkRateLimit (updateRateStats rateScenarioBase 0 5000) 0 0).2 = true ∧
     (checkRateLimit (updateRateStats rateScenarioBase 0 5000) 0 1000).2 = false ∧
     (checkRateLimit (updateRateStats rateScenarioBase 0 5000) 6 1000).2 = true) := by
  refine ⟨?_, ?_, ?_, ?_⟩
  · intro S now n
    refine ⟨rfl, ?_, rfl⟩
    simp only [checkRateLimit, rate_if_eq, decide_eq_true_eq]
  · norm_num [checkRateLimit, updateRateStats, rateScenarioBase, initPM]
  · norm_num [checkRateLimit, updateRateStats, rateScenarioBase, initPM]
  · norm_num [checkRateLimit, updateRateStats, rateScenarioBase, initPM]

/-- C8 counterexample: with 11 tracked pieces the claimed formula gives piece
10 the explicit priority 10 - 10/(11/10) = 0, but the code's
`set_piece_priority` silently ignores values outside 1..10, so piece 10 keeps
the default priority 5 instead of being assigned the formula's value. -/
theorem C8_counterexample :
    (setSequentialDownload (initPM 11 (fun _ => 16384) (fun _ => [])) true).map
        (fun S2 => priorityGet S2.piece_priorities 10) = some 5 ∧
    seqPriority 11 10 = 0 ∧ (5 : Int) ≠ 0 :=
  ⟨by decide, by decide, by decide⟩

/-- C8 (amended): `set_sequential_download(false)` clears all explicit
priorities, reverting every piece to the default 5. `set_sequential_download
(true)` applies `set_piece_priority(i, 10 - i/(totalPieces/10))` to every
index, so an index receives that value only when it lies in 1..10 and keeps
its previous (possibly default) priority otherwise; with 1 ≤ totalPieces < 10
the loop divides by zero (Python raises), and only the priority table is ever
modified. -/
theorem C8_sequential_download (S : PieceManager) (h10 : 10 ≤ S.pieces.length) :
    (setSequentialDownload S false = some { S with piece_priorities := [] } ∧
      ∀ j, priorityGet ([] : List (Nat × Int)) j = 5) ∧
    (∀ T : PieceManager, 1 ≤ T.pieces.length → T.pieces.length < 10 →
      setSequentialDownload T true = none) ∧
    (∃ S2, setSequentialDownload S true = some S2 ∧
      S2.pieces = S.pieces ∧ S2.completed_pieces = S.completed_pieces ∧
      S2.high_priority_pieces = S.high_priority_pieces ∧
      ∀ j, priorityGet S2.piece_priorities j =
        if j < S.pieces.length ∧ 1 ≤ seqPriority S.pieces.length j ∧ seqPriority S.pieces.length j ≤ 10
        then seqPriority S.pieces.length j else priorityGet S.piece_priorities j) := by
  refine ⟨⟨rfl, fun j => rfl⟩, ?_, ?_⟩
  · intro T h1 h9
    have h0 : ¬ T.pieces.length = 0 := by omega
    have hd : T.pieces.length / 10 = 0 := by omega
    simp [setSequentialDownload, h0, hd]
  · refine ⟨_, setSequentialDownload_enable S h10, rfl, rfl, rfl, ?_⟩
    intro j
    exact priorityGet_range_fold (fun i => seqPriority S.pieces.length i) S.pieces.length
      S.piece_priorities j

theorem C8_sequential_download_witness :
    10 ≤ (initPM 20 (fun _ => 16384) (fun _ => [])).pieces.length ∧
    ((setSequentialDownload (initPM 20 (fun _ => 16384) (fun _ => [])) false =
        some { initPM 20 (fun _ => 16384) (fun _ => []) with piece_priorities := [] } ∧
      ∀ j, priorityGet ([] : List (Nat × Int)) j = 5) ∧
    (∀ T : PieceManager, 1 ≤ T.pieces.length → T.pieces.length < 10 →
      setSequentialDownload T true = none) ∧
    (∃ S2, setSequentialDownload (initPM 20 (fun _ => 16384) (fun _ => [])) true = some S2 ∧
      S2.pieces = (initPM 20 (fun _ => 16384) (fun _ => [])).pieces ∧
      S2.completed_pieces = (initPM 20 (fun _ => 16384) (fun _ => [])).completed_pieces ∧
      S2.high_priority_pieces = (initPM 20 (fun _ => 16384) (fun _ => [])).high_priority_pieces ∧
      ∀ j, priorityGet S2.piece_priorities j =
        if j < (initPM 20 (fun _ => 16384) (fun _ => [])).pieces.length ∧
            1 ≤ seqPriority (initPM 20 (fun _ => 16384) (fun _ => [])).pieces.length j ∧
            seqPriority (initPM 20 (fun _ => 16384) (fun _ => [])).pieces.length j ≤ 10
        then seqPriority (initPM 20 (fun _ => 16384) (fun _ => [])).pieces.length j
        else priorityGet (initPM 20 (fun _ => 16384) (fun _ => [])).piece_priorities j)) :=
  ⟨by decide, C8_sequential_download (initPM 20 (fun _ => 16384) (fun _ => [])) (by decide)⟩

/-- C1: for every availability set with no high-priority candidates,
`get_next_request` orders the non-completed tracked candidates with
currently-Missing block count ascending as the dominant key and explicit
numeric priority (default 5) descending breaking ties among equal counts,
then walks that order, marking Requested and returning the first Missing
block (in partition order) of the first candidate that has one; in
particular the returned piece minimizes the missing-block count among all
candidates that still have a Missing block, so a 1-missing-block candidate
beats a 5-missing-block one. -/
theorem C1_rarity_dominant_selection (S : PieceManager) (avail : List Nat)
    (hnohp : ∀ i ∈ neededPieces S avail, i ∉ S.high_priority_pieces) :
    ∃ L : List Nat,
      L.Perm (neededPieces S avail) ∧
      L.Pairwise (fun a b => missingCount S a < missingCount S b ∨
        (missingCount S a = missingCount S b ∧
          priorityGet S.piece_priorities b ≤ priorityGet S.piece_priorities a)) ∧
      getNextRequest S avail = walkRequest S L ∧
      (∀ i offset blen, (getNextRequest S avail).1 = some (i, offset, blen) →
        i ∈ neededPieces S avail ∧ 0 < missingCount S i ∧
        ∀ j ∈ neededPieces S avail, 0 < missingCount S j → missingCount S i ≤ missingCount S j) := by
  have hhp : highPriorityCandidates S avail = [] := by
    rw [highPriorityCandidates, List.filter_eq_nil_iff]
    intro a ha
    simpa using hnohp a ha
  by_cases hempty : (neededPieces S avail).isEmpty
  · refine ⟨[], ?_, List.Pairwise.nil, ?_, ?_⟩
    · rw [List.isEmpty_iff.1 hempty]
    · rw [getNextRequest, if_pos hempty]
      rfl
    · intro i offset blen hres
      rw [getNextRequest, if_pos hempty] at hres
      cases hres
  · have hco : candidateOrder S avail =
        stableSortBy (fun p => ((missingCount S p : Int)))
          (stableSortBy (fun p => -(priorityGet S.piece_priorities p)) (neededPieces S avail)) :=
      candidateOrder_no_hp hhp
    have hperm : (candidateOrder S avail).Perm (neededPieces S avail) := by
      rw [hco]
      exact (stableSortBy_perm _ _).trans (stableSortBy_perm _ _)
    have hsorted : (candidateOrder S avail).Pairwise
        (fun a b => missingCount S a ≤ missingCount S b) := by
      rw [hco]
      refine (stableSortBy_sorted _ _).imp ?_
      intro a b hab
      exact_mod_cast hab
    refine ⟨candidateOrder S avail, hperm, ?_, ?_, ?_⟩
    · rw [hco]
      have hlex := stableSortBy_pairwise_lex (fun p => ((missingCount S p : Int)))
        (fun p => -(priorityGet S.piece_priorities p)) _
        (stableSortBy_sorted (fun p => -(priorityGet S.piece_priorities p)) (neededPieces S avail))
      refine hlex.imp ?_
      intro a b hab
      rcases hab with hlt | ⟨heq, hle⟩
      · have hlt2 : ((missingCount S a : Int)) < ((missingCount S b : Int)) := hlt
        exact Or.inl (by exact_mod_cast hlt2)
      · have heq2 : ((missingCount S a : Int)) = ((missingCount S b : Int)) := heq
        exact Or.inr ⟨by exact_mod_cast heq2, neg_le_neg_iff.1 hle⟩
    · rw [getNextRequest, if_neg hempty]
    · intro i offset blen hres
      rw [getNextRequest, if_neg hempty] at hres
      rcases walkRequest_some _ i offset blen hres with ⟨l₁, l₂, hl, hmiss1, b, hb, _, _, _⟩
      have hiL : i ∈ candidateOrder S avail := by
        rw [hl]
        exact List.mem_append_right _ (List.mem_cons_self _ _)
      have hipos : 0 < missingCount S i := by
        rw [missingCount]
        refine List.length_pos.2 ?_
        intro hnil
        rw [hnil] at hb
        cases hb
      refine ⟨mem_candidateOrder hiL, hipos, ?_⟩
      intro j hj hjm
      have hjL : j ∈ l₁ ++ i :: l₂ := by
        rw [← hl]
        exact hperm.mem_iff.2 hj
      rw [hl] at hsorted
      rcases List.pairwise_append.1 hsorted with ⟨_, hpw2, _⟩
      rcases List.mem_append.1 hjL with hj1 | hj2
      · exfalso
        have hz := hmiss1 j hj1
        rw [missingCount, hz] at hjm
        simp at hjm
      · rcases List.mem_cons.1 hj2 with rfl | hj3
        · exact le_refl _
        · exact (List.pairwise_cons.1 hpw2).1 j hj3

theorem C1_rarity_dominant_selection_witness :
    (∀ i ∈ neededPieces exRarity [0, 1], i ∉ exRarity.high_priority_pieces) ∧
    (∃ L : List Nat,
      L.Perm (neededPieces exRarity [0, 1]) ∧
      L.Pairwise (fun a b => missingCount exRarity a < missingCount exRarity b ∨
        (missingCount exRarity a = missingCount exRarity b ∧
          priorityGet exRarity.piece_priorities b ≤ priorityGet exRarity.piece_priorities a)) ∧
      getNextRequest exRarity [0, 1] = walkRequest exRarity L ∧
      (∀ i offset blen, (getNextRequest exRarity [0, 1]).1 = some (i, offset, blen) →
        i ∈ neededPieces exRarity [0, 1] ∧ 0 < missingCount exRarity i ∧
        ∀ j ∈ neededPieces exRarity [0, 1], 0 < missingCount exRarity j →
          missingCount exRarity i ≤ missingCount exRarity j)) :=
  ⟨by decide, C1_rarity_dominant_selection exRarity [0, 1] (by decide)⟩

/-- C2 counterexample: in `exHP` both candidates 0 and 1 are high-priority
with equal missing-block counts, and piece 1 has the strictly higher numeric
priority (10 against 1), so an ordering that still applied the numeric
priority sort inside the high-priority subset would have to select piece 1;
the code skips the numeric-priority sort in the high-priority branch and
returns a block of piece 0 instead. -/
theorem C2_counterexample :
    (0 ∈ exHP.high_priority_pieces ∧ 1 ∈ exHP.high_priority_pieces) ∧
    missingCount exHP 0 = missingCount exHP 1 ∧
    priorityGet exHP.piece_priorities 0 < priorityGet exHP.piece_priorities 1 ∧
    (getNextRequest exHP [0, 1]).1 = some (0, 0, 16384) :=
  ⟨⟨by decide, by decide⟩, by decide, by decide, by decide⟩

/-- C2 (amended): whenever at least one candidate of `get_next_request` is in
the high-priority set, selection is restricted to exactly those high-priority
candidates; within that subset only the missing-block-count ordering
(ascending) is applied — the numeric-priority sort sits in the other branch
and is skipped — and a non-member is never returned while a high-priority
candidate still has a Missing block. -/
theorem C2_high_priority_override (S : PieceManager) (avail : List Nat)
    (hne : highPriorityCandidates S avail ≠ []) :
    ∃ L : List Nat,
      L.Perm (highPriorityCandidates S avail) ∧
      L.Pairwise (fun a b => missingCount S a ≤ missingCount S b) ∧
      getNextRequest S avail = walkRequest S L ∧
      (∀ i offset blen, (getNextRequest S avail).1 = some (i, offset, blen) →
        i ∈ neededPieces S avail ∧ i ∈ S.high_priority_pieces) ∧
      ((∃ j ∈ highPriorityCandidates S avail, 0 < missingCount S j) →
        (getNextRequest S avail).1 ≠ none) := by
  have hco := candidateOrder_hp hne
  have hperm : (candidateOrder S avail).Perm (highPriorityCandidates S avail) := by
    rw [hco]
    exact stableSortBy_perm _ _
  have hempty : ¬ (neededPieces S avail).isEmpty := by
    intro hie
    rcases List.exists_mem_of_ne_nil _ hne with ⟨x, hx⟩
    have hxn := (mem_highPriorityCandidates.1 hx).1
    rw [List.isEmpty_iff.1 hie] at hxn
    cases hxn
  refine ⟨candidateOrder S avail, hperm, ?_, ?_, ?_, ?_⟩
  · rw [hco]
    refine (stableSortBy_sorted _ _).imp ?_
    intro a b hab
    have hab2 : ((missingCount S a : Int)) ≤ ((missingCount S b : Int)) := hab
    exact_mod_cast hab2
  · rw [getNextRequest, if_neg hempty]
  · intro i offset blen hres
    rw [getNextRequest, if_neg hempty] at hres
    rcases walkRequest_some _ i offset blen hres with ⟨l₁, l₂, hl, _⟩
    have hiL : i ∈ candidateOrder S avail := by
      rw [hl]
      exact List.mem_append_right _ (List.mem_cons_self _ _)
    exact mem_highPriorityCandidates.1 (hperm.mem_iff.1 hiL)
  · rintro ⟨j, hj, hjm⟩ hnone
    rw [getNextRequest, if_neg hempty] at hnone
    have hall := (walkRequest_none _ hnone).2
    have hz := hall j (hperm.mem_iff.2 hj)
    rw [missingCount, hz] at hjm
    simp at hjm

theorem C2_high_priority_override_witness :
    highPriorityCandidates exHP [0, 1] ≠ [] ∧
    (∃ L : List Nat,
      L.Perm (highPriorityCandidates exHP [0, 1]) ∧
      L.Pairwise (fun a b => missingCount exHP a ≤ missingCount exHP b) ∧
      getNextRequest exHP [0, 1] = walkRequest exHP L ∧
      (∀ i offset blen, (getNextRequest exHP [0, 1]).1 = some (i, offset, blen) →
        i ∈ neededPieces exHP [0, 1] ∧ i ∈ exHP.high_priority_pieces) ∧
      ((∃ j ∈ highPriorityCandidates exHP [0, 1], 0 < missingCount exHP j) →
        (getNextRequest exHP [0, 1]).1 ≠ none)) :=
  ⟨by decide, C2_high_priority_override exHP [0, 1] (by decide)⟩

/-- C10: when `get_next_request` returns (pieceIndex, offset, length), the
only state change is that the first Missing block of that tracked piece has
its requested flag set — the completed set, priority table, high-priority
set, rate fields, every buffer and every other block are untouched, as the
single-field record update shows — and when it returns none the state is
unchanged. -/
theorem C10_request_frame (S : PieceManager) (avail : List Nat) :
    ((getNextRequest S avail).1 = none → (getNextRequest S avail).2 = S) ∧
    (∀ i offset blen, (getNextRequest S avail).1 = some (i, offset, blen) →
      i < S.pieces.length ∧
      ∃ l₁ b l₂, (pieceAt S i).blocks = l₁ ++ b :: l₂ ∧
        blockMissing b = true ∧ (∀ c ∈ l₁, blockMissing c = false) ∧
        offset = b.offset ∧ blen = b.length ∧
        (getNextRequest S avail).2 = { S with pieces := S.pieces.set i { pieceAt S i with blocks := l₁ ++ { b with requested := true } :: l₂ } }) := by
  constructor
  · intro hres
    by_cases hempty : (neededPieces S avail).isEmpty
    · rw [getNextRequest, if_pos hempty]
    · rw [getNextRequest, if_neg hempty] at hres ⊢
      exact (walkRequest_none _ hres).1
  · intro i offset blen hres
    by_cases hempty : (neededPieces S avail).isEmpty
    · rw [getNextRequest, if_pos hempty] at hres
      cases hres
    · rw [getNextRequest, if_neg hempty] at hres
      rcases walkRequest_some _ i offset blen hres with ⟨lx, ly, hl, _, b, hb, ho, hlen, hst⟩
      have hiL : i ∈ candidateOrder S avail := by
        rw [hl]
        exact List.mem_append_right _ (List.mem_cons_self _ _)
      have hi := (mem_neededPieces.1 (mem_candidateOrder hiL)).2.1
      rw [Piece.get_missing_blocks] at hb
      rcases head_filter_split blockMissing b _ hb with ⟨m₁, m₂, hbl, hm1, hm2⟩
      refine ⟨hi, m₁, b, m₂, hbl, hm2, hm1, ho, hlen, ?_⟩
      rw [getNextRequest, if_neg hempty, hst]
      have hmark := markFirstMissing_append b m₂ m₁ hm1 hm2
      rw [hbl, hmark]

theorem C10_request_frame_witness :
    ((getNextRequest exMatch []).1 = none → (getNextRequest exMatch []).2 = exMatch) ∧
    ((getNextRequest exMatch []).1 = none ∧ (getNextRequest exMatch []).2 = exMatch) :=
  ⟨(C10_request_frame exMatch []).1,
    ⟨rfl, (C10_request_frame exMatch []).1 rfl⟩⟩

/-- C3: when the ingested block completes its piece but the assembled buffer
hashes to something other than the expected digest, `add_piece_data` fully
resets the piece — every block back to Missing with its payload discarded,
buffer re-zeroed, completion and verification flags cleared — leaves the
index out of the completed set, delivers no completion callback, and still
returns true; so no piece settles in a completed-but-unverified state. -/
theorem C3_verification_failure_reset (hashFn : List Nat → List Nat) (S : PieceManager)
    (i offset : Nat) (payload : List Nat)
    (hi : i < S.pieces.length)
    (hpc : (pieceAt S i).completed = false)
    (hmem : i ∉ S.completed_pieces)
    (hok : ((pieceAt S i).add_block_data hashFn offset payload).2 = true)
    (hcomp : (((pieceAt S i).add_block_data hashFn offset payload).1).completed = true)
    (hbad : hashFn ((((pieceAt S i).add_block_data hashFn offset payload).1).data) ≠ (pieceAt S i).hash_value) :
    (addPieceData hashFn S i offset payload).ok = true ∧
    (addPieceData hashFn S i offset payload).callback = none ∧
    (addPieceData hashFn S i offset payload).state.completed_pieces = S.completed_pieces ∧
    i ∉ (addPieceData hashFn S i offset payload).state.completed_pieces ∧
    (pieceAt (addPieceData hashFn S i offset payload).state i).completed = false ∧
    (pieceAt (addPieceData hashFn S i offset payload).state i).verified = false ∧
    (pieceAt (addPieceData hashFn S i offset payload).state i).data =
      List.replicate ((pieceAt S i).length) 0 ∧
    (∀ b ∈ (pieceAt (addPieceData hashFn S i offset payload).state i).blocks,
      b.received = false ∧ b.requested = false ∧ b.data = none) ∧
    shape (pieceAt (addPieceData hashFn S i offset payload).state i) = shape (pieceAt S i) ∧
    (pieceAt (addPieceData hashFn S i offset payload).state i).hash_value = (pieceAt S i).hash_value := by
  have hv : (((pieceAt S i).add_block_data hashFn offset payload).1).verified = false := by
    rw [add_block_data_verified_eq (pieceAt S i) hashFn offset payload hcomp hpc]
    exact decide_eq_false hbad
  rcases addPieceData_spec hashFn S i offset payload with ⟨hni, _⟩ | ⟨_, hcmp, _⟩ | ⟨_, _, hcase⟩
  · exact absurd hi hni
  · rw [hcmp] at hpc
    cases hpc
  · rcases hcase with ⟨_, _, hvt, _⟩ | ⟨_, _, _, heq⟩ | ⟨hng, _⟩
    · rw [hv] at hvt
      cases hvt
    · rcases add_block_data_fields (pieceAt S i) hashFn offset payload with ⟨_, hlen, hhash, hshp⟩
      have hAt : pieceAt (addPieceData hashFn S i offset payload).state i =
          resetPiece (((pieceAt S i).add_block_data hashFn offset payload).1) := by
        rw [heq]
        show (S.pieces.set i _).getD i default = _
        rw [getD_set, if_pos ⟨rfl, hi⟩]
      refine ⟨by rw [heq], by rw [heq], by rw [heq], by rw [heq]; exact hmem, ?_, ?_, ?_, ?_, ?_, ?_⟩
      · rw [hAt]
        rfl
      · rw [hAt]
        rfl
      · rw [hAt]
        show List.replicate (((pieceAt S i).add_block_data hashFn offset payload).1).length 0 = _
        rw [hlen]
      · rw [hAt]
        intro b hb
        rcases List.mem_map.1 hb with ⟨c, _, rfl⟩
        exact ⟨rfl, rfl, rfl⟩
      · rw [hAt, ← hshp]
        simp only [shape, resetPiece]
        exact shape_resetPiece _
      · rw [hAt, ← hhash]
        rfl
    · exact absurd ⟨hok, hcomp⟩ hng

theorem C3_verification_failure_reset_witness :
    (0 < exMismatch.pieces.length ∧
      (pieceAt exMismatch 0).completed = false ∧
      (0 : Nat) ∉ exMismatch.completed_pieces ∧
      ((pieceAt exMismatch 0).add_block_data hashId 0 [9]).2 = true ∧
      (((pieceAt exMismatch 0).add_block_data hashId 0 [9]).1).completed = true ∧
      hashId ((((pieceAt exMismatch 0).add_block_data hashId 0 [9]).1).data) ≠ (pieceAt exMismatch 0).hash_value) ∧
    ((addPieceData hashId exMismatch 0 0 [9]).ok = true ∧
      (addPieceData hashId exMismatch 0 0 [9]).callback = none ∧
      (addPieceData hashId exMismatch 0 0 [9]).state.completed_pieces = exMismatch.completed_pieces ∧
      (0 : Nat) ∉ (addPieceData hashId exMismatch 0 0 [9]).state.completed_pieces ∧
      (pieceAt (addPieceData hashId exMismatch 0 0 [9]).state 0).completed = false ∧
      (pieceAt (addPieceData hashId exMismatch 0 0 [9]).state 0).verified = false ∧
      (pieceAt (addPieceData hashId exMismatch 0 0 [9]).state 0).data =
        List.replicate ((pieceAt exMismatch 0).length) 0 ∧
      (∀ b ∈ (pieceAt (addPieceData hashId exMismatch 0 0 [9]).state 0).blocks,
        b.received = false ∧ b.requested = false ∧ b.data = none) ∧
      shape (pieceAt (addPieceData hashId exMismatch 0 0 [9]).state 0) = shape (pieceAt exMismatch 0) ∧
      (pieceAt (addPieceData hashId exMismatch 0 0 [9]).state 0).hash_value = (pieceAt exMismatch 0).hash_value) :=
  ⟨⟨by decide, by decide, by decide, by decide, by decide, by decide⟩,
    C3_verification_failure_reset hashId exMismatch 0 0 [9]
      (by decide) (by decide) (by decide) (by decide) (by decide) (by decide)⟩

/-- C5: `add_piece_data` returns false and changes nothing when the index is
untracked; returns true immediately, without touching any state, when the
piece is already completed (equivalently, under the reachable-state
invariant, in the completed set); and otherwise returns exactly what the
piece's `add_block_data` returned. -/
theorem C5_add_piece_data_guards (hashFn : List Nat → List Nat) (S : PieceManager)
    (i offset : Nat) (payload : List Nat)
    (hinv : i ∈ S.completed_pieces ↔ (i < S.pieces.length ∧ (pieceAt S i).completed = true)) :
    (¬ i < S.pieces.length → addPieceData hashFn S i offset payload = ⟨S, false, none⟩) ∧
    (i ∈ S.completed_pieces → addPieceData hashFn S i offset payload = ⟨S, true, none⟩) ∧
    (i < S.pieces.length → i ∉ S.completed_pieces →
      (addPieceData hashFn S i offset payload).ok =
        ((pieceAt S i).add_block_data hashFn offset payload).2) := by
  rcases addPieceData_spec hashFn S i offset payload with ⟨hni, heq⟩ | ⟨hi, hcmp, heq⟩ |
    ⟨hi, hcf, hcase⟩
  · refine ⟨fun _ => heq, ?_, ?_⟩
    · intro hmem
      exact absurd (hinv.1 hmem).1 hni
    · intro hlt _
      exact absurd hlt hni
  · refine ⟨fun hn => absurd hi hn, fun _ => heq, ?_⟩
    intro _ hnmem
    exact absurd (hinv.2 ⟨hi, hcmp⟩) hnmem
  · have hnm : i ∉ S.completed_pieces := by
      intro hmem
      rw [(hinv.1 hmem).2] at hcf
      cases hcf
    refine ⟨fun hn => absurd hi hn, fun hmem => absurd hmem hnm, ?_⟩
    intro _ _
    rcases hcase with ⟨h2, _, _, heq⟩ | ⟨h2, _, _, heq⟩ | ⟨_, heq⟩
    · rw [heq, h2]
    · rw [heq, h2]
    · rw [heq]

theorem C5_add_piece_data_guards_witness :
    ((0 : Nat) ∈ exMatch.completed_pieces ↔
      (0 < exMatch.pieces.length ∧ (pieceAt exMatch 0).completed = true)) ∧
    ((¬ 0 < exMatch.pieces.length → addPieceData hashId exMatch 0 0 [9] = ⟨exMatch, false, none⟩) ∧
     ((0 : Nat) ∈ exMatch.completed_pieces → addPieceData hashId exMatch 0 0 [9] = ⟨exMatch, true, none⟩) ∧
     (0 < exMatch.pieces.length → (0 : Nat) ∉ exMatch.completed_pieces →
       (addPieceData hashId exMatch 0 0 [9]).ok =
         ((pieceAt exMatch 0).add_block_data hashId 0 [9]).2)) :=
  ⟨by decide, C5_add_piece_data_guards hashId exMatch 0 0 [9] (by decide)⟩

/-- C9: in every state reachable from construction through the public
operations, every index in the completed set refers to a tracked piece whose
blocks are all received, whose completed and verified flags are set, and
whose assembly buffer hashes to the expected digest; and no operation ever
removes an index from the completed set or changes the assembly buffer of a
completed piece. -/
theorem C9_completed_set_invariant (hashFn : List Nat → List Nat)
    (totalPieces : Nat) (plen : Nat → Nat) (phash : Nat → List Nat) (S : PieceManager)
    (hreach : Reachable hashFn totalPieces plen phash S) :
    (∀ i ∈ S.completed_pieces,
      i < S.pieces.length ∧
      (∀ b ∈ (pieceAt S i).blocks, b.received = true) ∧
      (pieceAt S i).completed = true ∧
      (pieceAt S i).verified = true ∧
      hashFn ((pieceAt S i).data) = (pieceAt S i).hash_value) ∧
    (∀ T, Step hashFn S T →
      S.completed_pieces ⊆ T.completed_pieces ∧
      ∀ i ∈ S.completed_pieces, (pieceAt T i).data = (pieceAt S i).data) := by
  have hgood := goodState_reachable hashFn totalPieces plen phash S hreach
  refine ⟨fun i hi => hgood i hi, ?_⟩
  intro T hstep
  exact ⟨(step_effects hashFn hstep).2.2.1, ((step_effects hashFn hstep).2.2.2 hgood).2⟩

theorem C9_completed_set_invariant_witness :
    Reachable hashId 1 (fun _ => 1) (fun _ => [9]) (initPM 1 (fun _ => 1) (fun _ => [9])) ∧
    ((∀ i ∈ (initPM 1 (fun _ => 1) (fun _ => [9])).completed_pieces,
      i < (initPM 1 (fun _ => 1) (fun _ => [9])).pieces.length ∧
      (∀ b ∈ (pieceAt (initPM 1 (fun _ => 1) (fun _ => [9])) i).blocks, b.received = true) ∧
      (pieceAt (initPM 1 (fun _ => 1) (fun _ => [9])) i).completed = true ∧
      (pieceAt (initPM 1 (fun _ => 1) (fun _ => [9])) i).verified = true ∧
      hashId ((pieceAt (initPM 1 (fun _ => 1) (fun _ => [9])) i).data) =
        (pieceAt (initPM 1 (fun _ => 1) (fun _ => [9])) i).hash_value) ∧
    (∀ T, Step hashId (initPM 1 (fun _ => 1) (fun _ => [9])) T →
      (initPM 1 (fun _ => 1) (fun _ => [9])).completed_pieces ⊆ T.completed_pieces ∧
      ∀ i ∈ (initPM 1 (fun _ => 1) (fun _ => [9])).completed_pieces,
        (pieceAt T i).data = (pieceAt (initPM 1 (fun _ => 1) (fun _ => [9])) i).data)) :=
  ⟨Relation.ReflTransGen.refl,
    C9_completed_set_invariant hashId 1 (fun _ => 1) (fun _ => [9]) _ Relation.ReflTransGen.refl⟩
